import Mathlib

/-!
Shallow embedding of the B-Spline/NURBS kernel of this repository
(`src/nurbs/utilities.py` and `src/geomdl/operations.py`) and proofs about it.

Python machine reals are modelled by exact rationals (`ℚ`); fallible Python
code (exceptions: `IndexError`, `TypeError`, `ZeroDivisionError`, `ValueError`)
is modelled in the `Except String` monad, with the source's error messages kept
where the source raises explicitly.  Possibly non-terminating `while` loops are
modelled with an explicit fuel parameter: `none` means the fuel ran out, so
"the loop terminates" is "the result is `some _` for a sufficiently large fuel".
-/

namespace NurbsProof

/- The Batteries rational-number operations are `@[irreducible]`; they are
unsealed so that concrete runs of the embedded code reduce inside `decide`. -/
unseal Rat.add Rat.mul Rat.inv Rat.sub

/-- Error result used to model a Python exception. -/
abbrev PyEx := String

/-- Resolve a Python list index (negative indices count from the end);
`none` models an `IndexError`. -/
def pyIdx (len : ℕ) (i : ℤ) : Option ℕ :=
  if 0 ≤ i ∧ i < (len : ℤ) then some i.toNat
  else if -(len : ℤ) ≤ i ∧ i < 0 then some ((len : ℤ) + i).toNat
  else none

/-- Python `l[i]` for reading. -/
def pyGet {α : Type} (l : List α) (i : ℤ) : Except PyEx α :=
  match pyIdx l.length i with
  | some n =>
    match l[n]? with
    | some a => .ok a
    | none => .error "IndexError"
  | none => .error "IndexError"

/-- Python `l[i] = a` for writing into a list (lists are the only mutable
containers these sources use; the updated list is returned). -/
def pySet {α : Type} (l : List α) (i : ℤ) (a : α) : Except PyEx (List α) :=
  match pyIdx l.length i with
  | some n => .ok (l.set n a)
  | none => .error "IndexError"

/-- Python slice bound resolution: clamp into `[0, len]`. -/
def pySliceIdx (len : ℕ) (i : ℤ) : ℕ :=
  if i < 0 then ((len : ℤ) + i).toNat else min i.toNat len

/-- Python `l[a:b]` (step 1). Slicing never raises. -/
def pySlice {α : Type} (l : List α) (a b : ℤ) : List α :=
  (l.take (pySliceIdx l.length b)).drop (pySliceIdx l.length a)

/-- Python `range(a, b)` as a list of integers. -/
def pyrange (a b : ℤ) : List ℤ :=
  (List.range (b - a).toNat).map (fun k : ℕ => a + (k : ℤ))

/-- Python division: raises `ZeroDivisionError` on a zero denominator. -/
def pydiv (a b : ℚ) : Except PyEx ℚ :=
  if b = 0 then .error "ZeroDivisionError" else .ok (a / b)

/-- A Python list cell that may hold `None` (uninitialized scratch slots in the
sources are created as `[None for ...]`). -/
abbrev Cell := Option ℚ

/-- A scratch array of the sources (`left`, `right`, `N`, rows of `ndu`...). -/
abbrev Arr := List Cell

/-- A scratch matrix (list of lists). -/
abbrev Mat := List Arr

/-- Read `l[i]` and use the value in arithmetic: a `None` cell raises
(`TypeError` in Python). -/
def valGet (l : Arr) (i : ℤ) : Except PyEx ℚ := do
  match (← pyGet l i) with
  | some q => .ok q
  | none => .error "TypeError"

/-- Read a matrix entry `m[i][j]` for arithmetic. -/
def matGet (m : Mat) (i j : ℤ) : Except PyEx ℚ := do
  valGet (← pyGet m i) j

/-- Read a matrix cell `m[i][j]` as a raw cell (pure copy, no arithmetic):
a `None` value is copied, not raised on. -/
def matCellGet (m : Mat) (i j : ℤ) : Except PyEx Cell := do
  pyGet (← pyGet m i) j

/-- Write a matrix entry `m[i][j] = q`. -/
def matSet (m : Mat) (i j : ℤ) (c : Cell) : Except PyEx Mat := do
  let row ← pyGet m i
  let row' ← pySet row j c
  pySet m i row'

/-! ## `src/nurbs/utilities.py` -/

/-- `knotvector_normalize` (src/nurbs/utilities.py:36-54): normalizes the knot
vector between 0 and 1.  The only guard is the emptiness check; afterwards every
element is divided by `last_knot - first_knot`. -/
def knotvector_normalize (knotvector : List ℚ) : Except PyEx (List ℚ) :=
  if knotvector.length = 0 then .ok knotvector
  else do
    let first_knot ← pyGet knotvector 0
    let last_knot ← pyGet knotvector (-1)
    let knotvector_out ← knotvector.foldlM
      (fun (acc : List ℚ) kv => do
        let q ← pydiv (kv - first_knot) (last_knot - first_knot)
        pure (acc ++ [q]))
      []
    pure knotvector_out

/-- The body of `find_span`'s `while` loop (src/nurbs/utilities.py:119-130),
with an explicit fuel bound; `none` models the loop not terminating within
`fuel` iterations (Python runs it unboundedly). -/
def findSpanLoop (knotvector : List ℚ) (knot : ℚ) :
    ℕ → ℤ → ℤ → Option (Except PyEx ℤ)
  | 0, _, _ => none
  | fuel + 1, low, high =>
    let mid : ℤ := (low + high) / 2
    match pyGet knotvector mid, pyGet knotvector (mid + 1) with
    | .ok kvMid, .ok kvMid1 =>
      if knot < kvMid ∨ knot ≥ kvMid1 then
        if knot < kvMid then findSpanLoop knotvector knot fuel low mid
        else findSpanLoop knotvector knot fuel mid high
      else some (.ok mid)
    | .error e, _ => some (.error e)
    | _, .error e => some (.error e)

/-- `find_span` (src/nurbs/utilities.py:108-130), Algorithm A2.1: binary search
for the knot span, with the tolerance special case for the right end. -/
def find_span (fuel : ℕ) (degree : ℤ) (knotvector : List ℚ) (num_ctrlpts : ℤ)
    (knot : ℚ) (tol : ℚ) : Option (Except PyEx ℤ) :=
  let n : ℤ := num_ctrlpts - 1
  match pyGet knotvector (n + 1) with
  | .error e => some (.error e)
  | .ok kvLast =>
    if |kvLast - knot| ≤ tol then some (.ok n)
    else findSpanLoop knotvector knot fuel degree (n + 1)

/-- `find_multiplicity` (src/nurbs/utilities.py:134-143): counts knot-vector
entries within `tol` of `knot`. -/
def find_multiplicity (knot : ℚ) (knotvector : List ℚ) (tol : ℚ) : ℤ :=
  knotvector.foldl (fun mult kv => if |knot - kv| ≤ tol then mult + 1 else mult) 0

/-- The body of the inner loop `for r in range(0, j)` of Algorithm A2.2
(src/nurbs/utilities.py:160-163): `temp = N[r] / (right[r+1] + left[j-r])`,
`N[r] = saved + right[r+1]*temp`, `saved = left[j-r]*temp`.  The state is
`(N, saved)`. -/
def bfInner (left right : Arr) (j : ℤ) (p : Arr × ℚ) (r : ℤ) :
    Except PyEx (Arr × ℚ) := do
  let nr ← valGet p.1 r
  let rr ← valGet right (r + 1)
  let lj ← valGet left (j - r)
  let temp ← pydiv nr (rr + lj)
  let N ← pySet p.1 r (some (p.2 + rr * temp))
  pure (N, lj * temp)

/-- The body of the outer loop `for j in range(1, degree+1)` of Algorithm A2.2
(src/nurbs/utilities.py:156-164): set `left[j]`, `right[j]`, run the inner
loop with `saved = 0.0`, then `N[j] = saved`. -/
def bfOuter (knotvector : List ℚ) (span : ℤ) (knot : ℚ) (st : Arr × Arr × Arr)
    (j : ℤ) : Except PyEx (Arr × Arr × Arr) := do
  let (left, right, N) := st
  let kv1 ← pyGet knotvector (span + 1 - j)
  let left ← pySet left j (some (knot - kv1))
  let kv2 ← pyGet knotvector (span + j)
  let right ← pySet right j (some (kv2 - knot))
  let inner ← (pyrange 0 j).foldlM (bfInner left right j) (N, (0 : ℚ))
  let N ← pySet inner.1 j (some inner.2)
  pure (left, right, N)

/-- `basis_functions` (src/nurbs/utilities.py:147-166), Algorithm A2.2.
The scratch arrays `left`, `right`, `N` start filled with `None`; `N[0] = 1.0`;
the nested loops build the degree-`degree` basis values in place. -/
def basis_functions (degree : ℤ) (knotvector : List ℚ) (span : ℤ) (knot : ℚ) :
    Except PyEx Arr := do
  let left : Arr := List.replicate (degree + 1).toNat none
  let right : Arr := List.replicate (degree + 1).toNat none
  let N : Arr := List.replicate (degree + 1).toNat none
  let N ← pySet N 0 (some 1)
  let st ← (pyrange 1 (degree + 1)).foldlM (bfOuter knotvector span knot)
    (left, right, N)
  pure st.2.2

/-- Phase 1 of `basis_functions_ders` (src/nurbs/utilities.py:184-203): the
`ndu` table (lower triangle: knot-difference denominators, upper triangle:
basis values). -/
def bfdNdu (degree : ℤ) (knotvector : List ℚ) (span : ℤ) (knot : ℚ) :
    Except PyEx Mat := do
  let left : Arr := List.replicate (degree + 1).toNat none
  let right : Arr := List.replicate (degree + 1).toNat none
  let ndu : Mat :=
    List.replicate (degree + 1).toNat (List.replicate (degree + 1).toNat none)
  let ndu ← matSet ndu 0 0 (some 1)
  let st ← (pyrange 1 (degree + 1)).foldlM
    (fun (st : Arr × Arr × Mat) (j : ℤ) => do
      let (left, right, ndu) := st
      let kv1 ← pyGet knotvector (span + 1 - j)
      let left ← pySet left j (some (knot - kv1))
      let kv2 ← pyGet knotvector (span + j)
      let right ← pySet right j (some (kv2 - knot))
      let inner ← (pyrange 0 j).foldlM
        (fun (p : Mat × ℚ) (r : ℤ) => do
          let (ndu, saved) := p
          let rr ← valGet right (r + 1)
          let lj ← valGet left (j - r)
          let ndu ← matSet ndu j r (some (rr + lj))
          let upper ← matGet ndu r (j - 1)
          let lower ← matGet ndu j r
          let temp ← pydiv upper lower
          let ndu ← matSet ndu r j (some (saved + rr * temp))
          pure (ndu, lj * temp))
        (ndu, (0 : ℚ))
      let (ndu, saved) := inner
      let ndu ← matSet ndu j j (some saved)
      pure (left, right, ndu))
    (left, right, ndu)
  pure st.2.2

/-- Phase 2 of `basis_functions_ders` (src/nurbs/utilities.py:206-208): load row
0 of `ders` from the `ndu` table (`ders[0][j] = ndu[j][degree]`, a cell copy). -/
def bfdLoad (degree : ℤ) (ndu ders : Mat) : Except PyEx Mat :=
  (pyrange 0 (degree + 1)).foldlM
    (fun ders j => do
      let c ← matCellGet ndu j degree
      matSet ders 0 j c)
    ders

/-- The `if r >= k` head of a `k` iteration of A2.3
(src/nurbs/utilities.py:223-225): `a[s2][0] = a[s1][0] / ndu[pk+1][rk]`,
`d = a[s2][0] * ndu[rk][pk]`; `d` stays `0.0` otherwise. -/
def bfdKA (degree : ℤ) (ndu a : Mat) (s1 s2 r k : ℤ) :
    Except PyEx (Mat × ℚ) :=
  if r ≥ k then do
    let a10 ← matGet a s1 0
    let den ← matGet ndu (degree - k + 1) (r - k)
    let q ← pydiv a10 den
    let a ← matSet a s2 0 (some q)
    let n2 ← matGet ndu (r - k) (degree - k)
    pure (a, q * n2)
  else pure (a, 0)

/-- The inner `j` loop of a `k` iteration of A2.3
(src/nurbs/utilities.py:226-236), with the bounds
`j1 = 1` if `rk >= -1` else `-rk` and `j2 = k-1` if `r-1 <= pk` else
`degree - r`. -/
def bfdKB (degree : ℤ) (ndu : Mat) (s1 s2 r k : ℤ) (p : Mat × ℚ) :
    Except PyEx (Mat × ℚ) :=
  (pyrange (if r - k ≥ -1 then 1 else -(r - k))
      ((if r - 1 ≤ degree - k then k - 1 else degree - r) + 1)).foldlM
    (fun (p : Mat × ℚ) (j : ℤ) => do
      let v1 ← matGet p.1 s1 j
      let v2 ← matGet p.1 s1 (j - 1)
      let den ← matGet ndu (degree - k + 1) (r - k + j)
      let q ← pydiv (v1 - v2) den
      let a ← matSet p.1 s2 j (some q)
      let n2 ← matGet ndu (r - k + j) (degree - k)
      pure (a, p.2 + q * n2))
    p

/-- The `if r <= pk` tail of a `k` iteration of A2.3
(src/nurbs/utilities.py:237-239). -/
def bfdKC (degree : ℤ) (ndu : Mat) (s1 s2 r k : ℤ) (p : Mat × ℚ) :
    Except PyEx (Mat × ℚ) :=
  if r ≤ degree - k then do
    let v ← matGet p.1 s1 (k - 1)
    let den ← matGet ndu (degree - k + 1) r
    let q ← pydiv (-v) den
    let a ← matSet p.1 s2 k (some q)
    let n2 ← matGet ndu r (degree - k)
    pure (a, p.2 + q * n2)
  else pure p

/-- One iteration of the `k` loop of `basis_functions_ders`
(src/nurbs/utilities.py:219-245), for the function index `r`.  The state is
`(a, s1, s2, ders)`; the iteration ends with `ders[k][r] = d` and the
`s1`/`s2` row swap. -/
def bfdKStep (degree : ℤ) (ndu : Mat) (r : ℤ) (st : Mat × ℤ × ℤ × Mat)
    (k : ℤ) : Except PyEx (Mat × ℤ × ℤ × Mat) := do
  let (a, s1, s2, ders) := st
  let p1 ← bfdKA degree ndu a s1 s2 r k
  let p2 ← bfdKB degree ndu s1 s2 r k p1
  let p3 ← bfdKC degree ndu s1 s2 r k p2
  let ders ← matSet ders k r (some p3.2)
  pure (p3.1, s2, s1, ders)

/-- One iteration of the function-index loop `for r in range(0, degree+1)` of
`basis_functions_ders` (src/nurbs/utilities.py:213-245): reset `s1`, `s2`,
set `a[0][0] = 1.0`, run the `k` loop. -/
def bfdRStep (degree order : ℤ) (ndu : Mat) (st : Mat × Mat) (r : ℤ) :
    Except PyEx (Mat × Mat) := do
  let (a, ders) := st
  let a ← matSet a 0 0 (some 1)
  let inner ← (pyrange 1 (order + 1)).foldlM (bfdKStep degree ndu r)
    (a, (0 : ℤ), (1 : ℤ), ders)
  pure (inner.1, inner.2.2.2)

/-- Phase 3 of `basis_functions_ders` (src/nurbs/utilities.py:211-245): the
derivative back-substitution over the function index `r` and derivative order
`k`, with the two alternating scratch rows `a[0]`, `a[1]`. -/
def bfdDerivs (degree order : ℤ) (ndu ders : Mat) : Except PyEx Mat := do
  let a : Mat := List.replicate 2 (List.replicate (degree + 1).toNat none)
  let st ← (pyrange 0 (degree + 1)).foldlM (bfdRStep degree order ndu) (a, ders)
  pure st.2

/-- Phase 4 of `basis_functions_ders` (src/nurbs/utilities.py:248-252): multiply
through by the falling-factorial factors. -/
def bfdFactors (degree order : ℤ) (ders : Mat) : Except PyEx Mat := do
  let st ← (pyrange 1 (order + 1)).foldlM
    (fun (st : Mat × ℚ) (k : ℤ) => do
      let (ders, r) := st
      let ders ← (pyrange 0 (degree + 1)).foldlM
        (fun ders j => do
          let v ← matGet ders k j
          matSet ders k j (some (v * r)))
        ders
      pure (ders, r * ((degree : ℚ) - (k : ℚ))))
    (ders, (degree : ℚ))
  pure st.1

/-- `basis_functions_ders` (src/nurbs/utilities.py:181-255), Algorithm A2.3.
The `ders` table is allocated with `min(degree, order) + 1` rows. -/
def basis_functions_ders (degree : ℤ) (knotvector : List ℚ) (span : ℤ)
    (knot : ℚ) (order : ℤ) : Except PyEx Mat := do
  let ndu ← bfdNdu degree knotvector span knot
  let ders : Mat :=
    List.replicate (min degree order + 1).toNat
      (List.replicate (degree + 1).toNat none)
  let ders ← bfdLoad degree ndu ders
  let ders ← bfdDerivs degree order ndu ders
  bfdFactors degree order ders

/-! ## `src/geomdl/operations.py` — data model

The abstract curve/surface containers themselves are external collaborators
(spec §3, §6); only the fields the operations read/write are modelled. -/

/-- A B-Spline/NURBS curve (spec §3): degree, clamped knot vector, control
points, rational flag; `dimension` and `delta` are carried because the
operations copy them around. -/
structure Curve where
  degree : ℤ
  knotvector : List ℚ
  ctrlpts : List (List ℚ)
  rational : Bool
  dimension : ℤ
  delta : ℚ
deriving Repr, DecidableEq

/-- A B-Spline/NURBS surface (spec §3). `ctrlpts2d[u][v]` is the row-major
control grid; `ctrlpts_size_u`/`ctrlpts_size_v` are its dimensions. -/
structure Surface where
  degree_u : ℤ
  degree_v : ℤ
  knotvector_u : List ℚ
  knotvector_v : List ℚ
  ctrlpts2d : List (List (List ℚ))
  rational : Bool
  delta : ℚ
deriving Repr, DecidableEq

/-- Modelled from the spec: `helpers.find_span_linear` is not under `src/`;
the spec (§4.1) specifies span search as returning the index `i` with
`knotVector[i] <= knot < knotVector[i+1]`.  Modelled as the linear scan used by
the geomdl helper: start at `degree + 1` and advance while
`span < num_ctrlpts and knotvector[span] <= knot`, returning `span - 1`. -/
def fslLoop (knotvector : List ℚ) (knot : ℚ) :
    ℕ → ℤ → Except PyEx ℤ
  | 0, span => .ok (span - 1)
  | fuel + 1, span =>
    match pyGet knotvector span with
    | .error e => .error e
    | .ok v =>
      if v ≤ knot then fslLoop knotvector knot fuel (span + 1)
      else .ok (span - 1)

/-- Modelled from the spec: see `fslLoop`.  The loop guard `span < num_ctrlpts`
is rendered as the structural counter `num_ctrlpts - (degree + 1)`: the scan
advances `span` by one per step, so the counter reaches 0 exactly when
`span = num_ctrlpts`. -/
def find_span_linear (degree : ℤ) (knotvector : List ℚ) (num_ctrlpts : ℤ)
    (knot : ℚ) : Except PyEx ℤ :=
  fslLoop knotvector knot (num_ctrlpts - (degree + 1)).toNat (degree + 1)

/-- Modelled from the spec: `helpers.find_multiplicity` is not under `src/`;
the spec (§4.1) specifies `findMultiplicity(knot, knotVector, tol)` as counting
entries within `tol` of `knot` (same semantics as
`src/nurbs/utilities.py:find_multiplicity`); the geomdl helper's default
tolerance `1e-8` is used. -/
def find_multiplicity_h (knot : ℚ) (knotvector : List ℚ) : ℤ :=
  find_multiplicity knot knotvector (1 / 100000000)

/-- Modelled from the spec: the knot-insertion primitive
`insertKnot(shape, parameter, times, validateMultiplicity)` is an external
collaborator (spec §6, §4.4 step 3).  It inserts `times` copies of the
parameter into the knot vector after span position `span` and grows the
control-point list by `times` entries at the affected zone; the spec fixes
only the multiplicity/count effect, so the new interior control-point values
are modelled as duplicates of the point at the insertion position.  A negative
`times` is rejected. -/
def curveInsertKnot (c : Curve) (u : ℚ) (times : ℤ) : Except PyEx Curve := do
  if times < 0 then .error "ValueError: invalid number of insertions"
  else
    let span ← find_span_linear c.degree c.knotvector (c.ctrlpts.length : ℤ) u
    let kv' := pySlice c.knotvector 0 (span + 1) ++ List.replicate times.toNat u
      ++ pySlice c.knotvector (span + 1) (c.knotvector.length : ℤ)
    let a := span - c.degree + 1
    let pts' := pySlice c.ctrlpts 0 a
      ++ List.replicate times.toNat (c.ctrlpts.getD a.toNat [])
      ++ pySlice c.ctrlpts a (c.ctrlpts.length : ℤ)
    pure { c with knotvector := kv', ctrlpts := pts' }

/-- `split_curve` (src/geomdl/operations.py:21-84).  The first component of a
successful result is the state of the caller's curve object when the call
returns: the source reads `obj` but mutates only the deep copy `temp_obj` and
the two freshly constructed curves, so that component is the unchanged input —
returned explicitly so the non-mutation contract is a provable statement.
The `isinstance` guards hold by typing and the evaluator-class guard concerns
the external evaluator object, so neither is modelled. -/
def split_curve (obj : Curve) (u : ℚ) : Except PyEx (Curve × Curve × Curve) := do
  let kv0 ← pyGet obj.knotvector 0
  let kvLast ← pyGet obj.knotvector (-1)
  if u = kv0 ∨ u = kvLast then .error "Cannot split on the corner points"
  else
    let span0 ← find_span_linear obj.degree obj.knotvector (obj.ctrlpts.length : ℤ) u
    let ks := span0 - obj.degree + 1
    let s := find_multiplicity_h u obj.knotvector
    let r := obj.degree - s
    let temp_obj := obj
    let temp_obj ← curveInsertKnot temp_obj u r
    let span2 ← find_span_linear temp_obj.degree temp_obj.knotvector
      (temp_obj.ctrlpts.length : ℤ) u
    let knot_span := span2 + 1
    let curve1_kv := pySlice temp_obj.knotvector 0 knot_span ++ [u]
    let curve2_kv := List.replicate (temp_obj.degree + 1).toNat u
      ++ pySlice temp_obj.knotvector knot_span (temp_obj.knotvector.length : ℤ)
    let curve1_ctrlpts := pySlice temp_obj.ctrlpts 0 (ks + r)
    let curve2_ctrlpts := pySlice temp_obj.ctrlpts (ks + r - 1)
      (temp_obj.ctrlpts.length : ℤ)
    let curve1 : Curve :=
      { degree := temp_obj.degree, knotvector := curve1_kv,
        ctrlpts := curve1_ctrlpts, rational := temp_obj.rational,
        dimension := ((curve1_ctrlpts.headD []).length : ℤ), delta := 1 / 10 }
    let curve2 : Curve :=
      { degree := temp_obj.degree, knotvector := curve2_kv,
        ctrlpts := curve2_ctrlpts, rational := temp_obj.rational,
        dimension := ((curve2_ctrlpts.headD []).length : ℤ), delta := 1 / 10 }
    pure (obj, curve1, curve2)

/-- The `while knots:` loop of `decompose_curve`
(src/geomdl/operations.py:100-109), with fuel (`none` = fuel exhausted).
The source rebinds its accumulator to the split result
(`curves = split_curve(curve, u=knot, **kwargs)`), discarding the segments
collected so far, then appends `curves[0]` to that same two-element list and
continues with `curves[1]`; the rebinding is modelled exactly. -/
def decomposeLoop : ℕ → List Curve → Curve → Option (Except PyEx (List Curve))
  | 0, _, _ => none
  | fuel + 1, _curves, curve =>
    let knots := pySlice curve.knotvector (curve.degree + 1) (-(curve.degree + 1))
    match knots with
    | [] => some (.ok (_curves ++ [curve]))
    | knot :: _ =>
      match split_curve curve knot with
      | .error e => some (.error e)
      | .ok (_, c1, c2) => decomposeLoop fuel [c1, c2, c1] c2

/-- `decompose_curve` (src/geomdl/operations.py:87-111). -/
def decompose_curve (obj : Curve) (fuel : ℕ) : Option (Except PyEx (List Curve)) :=
  decomposeLoop fuel [] obj

/-- Modelled from the spec: `evaluators.CurveEvaluator2.derivatives_ctrlpts`
is not under `src/`; spec §4.3 gives the closed-form construction: level 0 is a
copy of the input control points in `[r1, r2]`, and the order-`k` control point
`i` is
`(degree-(k-1)) * (pkl[k-1][i+1] - pkl[k-1][i]) / (kv[r1+i+degree+k] - kv[r1+i+k])`.
Every level of the evaluator's table is allocated with `r2 - r1 + 1` rows, so
level `k` ends with `k` never-written placeholder rows (which the in-`src/`
callers slice off with `[0:-1]` before use); the placeholders are modelled as
`dimension` zeros. -/
def derivatives_ctrlpts (r1 r2 degree : ℤ) (kv : List ℚ)
    (pts : List (List ℚ)) (dimension : ℤ) (deriv_order : ℕ) :
    Except PyEx (List (List (List ℚ))) := do
  let level0 := pySlice pts r1 (r2 + 1)
  let filler : List ℚ := List.replicate dimension.toNat 0
  let st ← (List.range deriv_order).foldlM
    (fun (st : List (List (List ℚ)) × List (List ℚ)) k0 => do
      let (acc, prev) := st
      let k : ℤ := (k0 : ℤ) + 1
      let next ← (pyrange 0 ((prev.length : ℤ) - 1)).foldlM
        (fun (acc2 : List (List ℚ)) i => do
          let pA ← pyGet prev (i + 1)
          let pB ← pyGet prev i
          let kvA ← pyGet kv (r1 + i + degree + k)
          let kvB ← pyGet kv (r1 + i + k)
          let coef ← pydiv ((degree : ℚ) - (k : ℚ) + 1) (kvA - kvB)
          pure (acc2 ++ [(pA.zipWith (· - ·) pB).map (fun x => coef * x)]))
        []
      pure (acc ++ [next ++ List.replicate k.toNat filler], next))
    ([level0], level0)
  pure st.1

/-- `derivative_curve` (src/geomdl/operations.py:114-149).  The result pairs
the list of warnings emitted (`warnings.warn`) with the returned value: on a
rational curve the source warns and returns the input object itself. -/
def derivative_curve (obj : Curve) : List String × Except PyEx Curve :=
  if obj.rational then
    (["Cannot compute hodograph curve for a rational curve"], .ok obj)
  else
    ([], do
      let pkl ← derivatives_ctrlpts 0 ((obj.ctrlpts.length : ℤ) - 1) obj.degree
        obj.knotvector obj.ctrlpts obj.dimension 1
      let lvl1 ← pyGet pkl 1
      let newpts := pySlice lvl1 0 (-1)
      pure { degree := obj.degree - 1,
             knotvector := pySlice obj.knotvector 1 (-1),
             ctrlpts := newpts, rational := obj.rational,
             dimension := ((newpts.headD []).length : ℤ), delta := obj.delta })

/-! ### Transforms -/

/-- Modelled from the spec: `_operations.translate_single` is not under `src/`;
spec §4.6 — `translate(shape, vector)` adds the vector to every control point;
this is the `inplace=True` path, which mutates and returns the caller's shape. -/
def translate_inplace (c : Curve) (vec : List ℚ) : Curve :=
  { c with ctrlpts := c.ctrlpts.map (fun pt => pt.zipWith (· + ·) vec) }

/-- Modelled from the spec: the default (`inplace=False`) path of `translate`
produces a fresh translated shape and leaves the input untouched (spec §3, §4.6);
callers that discard its result therefore leave their shape unchanged. -/
def translate_copy (c : Curve) (vec : List ℚ) : Curve :=
  { c with ctrlpts := c.ctrlpts.map (fun pt => pt.zipWith (· + ·) vec) }

/-- Modelled from the spec: `linalg.vector_generate(start, end)` is not under
`src/`; `rotate` uses it to build the vector that translates the
parameter-zero point `start` to `end` (spec §4.6: "translates the shape so its
parameter-zero point is at the origin"), i.e. the componentwise `end - start`. -/
def vector_generate (start stop : List ℚ) : List ℚ :=
  stop.zipWith (· - ·) start

/-- Modelled from the spec: `obj.evaluate_single(0.0)` calls the external
evaluator; a clamped shape interpolates its first control point (spec
glossary), so the parameter-zero point is the first control point. -/
def evaluate_single_zero (c : Curve) : List ℚ :=
  c.ctrlpts.headD []

/-- The inner `rotate_x` of `rotate` (src/geomdl/operations.py:604-621);
`cosr`/`sinr` stand for `math.cos(math.radians(alpha))` /
`math.sin(math.radians(alpha))` (the transcendental evaluation is kept
abstract; a full turn has `cosr = 1`, `sinr = 0`).  The final
`translate(ncs, [-o for o in opt])` call of the source is made without
`inplace=True`, so its fresh result is discarded and `ncs` is returned
untranslated; the discarded call is kept as a dead binding. -/
def rotate_x_body (ncs : Curve) (opt : List ℚ) (cosr sinr : ℚ) :
    Except PyEx Curve := do
  let translate_vector := vector_generate opt
    (List.replicate ncs.dimension.toNat (0 : ℚ))
  let ncs := translate_inplace ncs translate_vector
  let new_ctrlpts ← ncs.ctrlpts.foldlM
    (fun (acc : List (List ℚ)) pt => do
      let base := List.replicate ncs.dimension.toNat (0 : ℚ)
      let p0 ← pyGet pt 0
      let b ← pySet base 0 p0
      let p1 ← pyGet pt 1
      let p2 ← pyGet pt 2
      let b ← pySet b 1 (p1 * cosr - p2 * sinr)
      let b ← pySet b 2 (p2 * cosr + p1 * sinr)
      pure (acc ++ [b]))
    []
  let ncs := { ncs with ctrlpts := new_ctrlpts }
  let _ := translate_copy ncs (opt.map Neg.neg)
  pure ncs

/-- The inner `rotate_y` of `rotate` (src/geomdl/operations.py:623-640);
see `rotate_x_body`. -/
def rotate_y_body (ncs : Curve) (opt : List ℚ) (cosr sinr : ℚ) :
    Except PyEx Curve := do
  let translate_vector := vector_generate opt
    (List.replicate ncs.dimension.toNat (0 : ℚ))
  let ncs := translate_inplace ncs translate_vector
  let new_ctrlpts ← ncs.ctrlpts.foldlM
    (fun (acc : List (List ℚ)) pt => do
      let base := List.replicate ncs.dimension.toNat (0 : ℚ)
      let p0 ← pyGet pt 0
      let p2 ← pyGet pt 2
      let b ← pySet base 0 (p0 * cosr - p2 * sinr)
      let p1 ← pyGet pt 1
      let b ← pySet b 1 p1
      let b ← pySet b 2 (p2 * cosr + p0 * sinr)
      pure (acc ++ [b]))
    []
  let ncs := { ncs with ctrlpts := new_ctrlpts }
  let _ := translate_copy ncs (opt.map Neg.neg)
  pure ncs

/-- The inner `rotate_z` of `rotate` (src/geomdl/operations.py:642-658): the
new points start as copies of the current points (`list(ncs.ctrlpts[i])`), and
only coordinates 0 and 1 are replaced; see `rotate_x_body` for the discarded
final translate call. -/
def rotate_z_body (ncs : Curve) (opt : List ℚ) (cosr sinr : ℚ) :
    Except PyEx Curve := do
  let translate_vector := vector_generate opt
    (List.replicate ncs.dimension.toNat (0 : ℚ))
  let ncs := translate_inplace ncs translate_vector
  let new_ctrlpts ← ncs.ctrlpts.foldlM
    (fun (acc : List (List ℚ)) pt => do
      let p0 ← pyGet pt 0
      let p1 ← pyGet pt 1
      let b ← pySet pt 0 (p0 * cosr - p1 * sinr)
      let b ← pySet b 1 (p1 * cosr + p0 * sinr)
      pure (acc ++ [b]))
    []
  let ncs := { ncs with ctrlpts := new_ctrlpts }
  let _ := translate_copy ncs (opt.map Neg.neg)
  pure ncs

/-- `rotate` (src/geomdl/operations.py:591-683) for curves: evaluate the
parameter-zero point, force the axis to 2 for 2-dimensional shapes, dispatch
on the axis.  `cosr`/`sinr` abstract `cos`/`sin` of the angle in radians.
The `inplace` option only selects between mutating the caller's object and a
deep copy; the produced value is the same either way, so it is not a
parameter here. -/
def rotate (obj : Curve) (cosr sinr : ℚ) (axis : ℤ) : Except PyEx Curve := do
  let origin := evaluate_single_zero obj
  let axis := if obj.dimension = 2 then 2 else axis
  if axis = 0 then rotate_x_body obj origin cosr sinr
  else if axis = 1 then rotate_y_body obj origin cosr sinr
  else if axis = 2 then rotate_z_body obj origin cosr sinr
  else .error "Value of the axis argument should be 0, 1 or 2"

/-! ### Surface operations -/

/-- Modelled from the spec: the u-direction knot-insertion primitive for
surfaces (external collaborator, spec §6); inserts `times` copies of `t` into
the u knot vector and grows the control grid by `times` rows, as in
`curveInsertKnot`. -/
def surfInsertKnotU (s : Surface) (t : ℚ) (times : ℤ) : Except PyEx Surface := do
  if times < 0 then .error "ValueError: invalid number of insertions"
  else
    let span ← find_span_linear s.degree_u s.knotvector_u
      (s.ctrlpts2d.length : ℤ) t
    let kv' := pySlice s.knotvector_u 0 (span + 1) ++ List.replicate times.toNat t
      ++ pySlice s.knotvector_u (span + 1) (s.knotvector_u.length : ℤ)
    let a := span - s.degree_u + 1
    let rows' := pySlice s.ctrlpts2d 0 a
      ++ List.replicate times.toNat (s.ctrlpts2d.getD a.toNat [])
      ++ pySlice s.ctrlpts2d a (s.ctrlpts2d.length : ℤ)
    pure { s with knotvector_u := kv', ctrlpts2d := rows' }

/-- Modelled from the spec: the v-direction knot-insertion primitive for
surfaces; inserts into the v knot vector and grows every row of the control
grid by `times` columns. -/
def surfInsertKnotV (s : Surface) (t : ℚ) (times : ℤ) : Except PyEx Surface := do
  if times < 0 then .error "ValueError: invalid number of insertions"
  else
    let span ← find_span_linear s.degree_v s.knotvector_v
      (((s.ctrlpts2d.headD []).length : ℤ)) t
    let kv' := pySlice s.knotvector_v 0 (span + 1) ++ List.replicate times.toNat t
      ++ pySlice s.knotvector_v (span + 1) (s.knotvector_v.length : ℤ)
    let a := span - s.degree_v + 1
    let rows' := s.ctrlpts2d.map (fun row =>
      pySlice row 0 a ++ List.replicate times.toNat (row.getD a.toNat [])
        ++ pySlice row a (row.length : ℤ))
    pure { s with knotvector_v := kv', ctrlpts2d := rows' }

/-- `split_surface_u` (src/geomdl/operations.py:208-275).  As in `split_curve`,
the first component of a successful result is the caller's surface after the
call (the source mutates only the deep copy and the fresh surfaces). -/
def split_surface_u (obj : Surface) (t : ℚ) :
    Except PyEx (Surface × Surface × Surface) := do
  let kv0 ← pyGet obj.knotvector_u 0
  let kvLast ← pyGet obj.knotvector_u (-1)
  if t = kv0 ∨ t = kvLast then .error "Cannot split on the edge"
  else
    let span0 ← find_span_linear obj.degree_u obj.knotvector_u
      (obj.ctrlpts2d.length : ℤ) t
    let ks := span0 - obj.degree_u + 1
    let s := find_multiplicity_h t obj.knotvector_u
    let r := obj.degree_u - s
    let temp_obj := obj
    let temp_obj ← surfInsertKnotU temp_obj t r
    let span2 ← find_span_linear temp_obj.degree_u temp_obj.knotvector_u
      (temp_obj.ctrlpts2d.length : ℤ) t
    let knot_span := span2 + 1
    let surf1_kv := pySlice temp_obj.knotvector_u 0 knot_span ++ [t]
    let surf2_kv := List.replicate (temp_obj.degree_u + 1).toNat t
      ++ pySlice temp_obj.knotvector_u knot_span (temp_obj.knotvector_u.length : ℤ)
    let surf1_ctrlpts := pySlice temp_obj.ctrlpts2d 0 (ks + r)
    let surf2_ctrlpts := pySlice temp_obj.ctrlpts2d (ks + r - 1)
      (temp_obj.ctrlpts2d.length : ℤ)
    let surf1 : Surface :=
      { degree_u := temp_obj.degree_u, degree_v := temp_obj.degree_v,
        knotvector_u := surf1_kv, knotvector_v := temp_obj.knotvector_v,
        ctrlpts2d := surf1_ctrlpts, rational := temp_obj.rational,
        delta := 1 / 10 }
    let surf2 : Surface :=
      { degree_u := temp_obj.degree_u, degree_v := temp_obj.degree_v,
        knotvector_u := surf2_kv, knotvector_v := temp_obj.knotvector_v,
        ctrlpts2d := surf2_ctrlpts, rational := temp_obj.rational,
        delta := 1 / 10 }
    pure (obj, surf1, surf2)

/-- `split_surface_v` (src/geomdl/operations.py:278-351). -/
def split_surface_v (obj : Surface) (t : ℚ) :
    Except PyEx (Surface × Surface × Surface) := do
  let kv0 ← pyGet obj.knotvector_v 0
  let kvLast ← pyGet obj.knotvector_v (-1)
  if t = kv0 ∨ t = kvLast then .error "Cannot split on the edge"
  else
    let span0 ← find_span_linear obj.degree_v obj.knotvector_v
      (((obj.ctrlpts2d.headD []).length : ℤ)) t
    let ks := span0 - obj.degree_v + 1
    let s := find_multiplicity_h t obj.knotvector_v
    let r := obj.degree_v - s
    let temp_obj := obj
    let temp_obj ← surfInsertKnotV temp_obj t r
    let span2 ← find_span_linear temp_obj.degree_v temp_obj.knotvector_v
      (((temp_obj.ctrlpts2d.headD []).length : ℤ)) t
    let knot_span := span2 + 1
    let surf1_kv := pySlice temp_obj.knotvector_v 0 knot_span ++ [t]
    let surf2_kv := List.replicate (temp_obj.degree_v + 1).toNat t
      ++ pySlice temp_obj.knotvector_v knot_span (temp_obj.knotvector_v.length : ℤ)
    let surf1_ctrlpts := temp_obj.ctrlpts2d.map (fun v_row =>
      pySlice v_row 0 (ks + r))
    let surf2_ctrlpts := temp_obj.ctrlpts2d.map (fun v_row =>
      pySlice v_row (ks + r - 1) (v_row.length : ℤ))
    let surf1 : Surface :=
      { degree_u := temp_obj.degree_u, degree_v := temp_obj.degree_v,
        knotvector_u := temp_obj.knotvector_u, knotvector_v := surf1_kv,
        ctrlpts2d := surf1_ctrlpts, rational := temp_obj.rational,
        delta := 1 / 10 }
    let surf2 : Surface :=
      { degree_u := temp_obj.degree_u, degree_v := temp_obj.degree_v,
        knotvector_u := temp_obj.knotvector_u, knotvector_v := surf2_kv,
        ctrlpts2d := surf2_ctrlpts, rational := temp_obj.rational,
        delta := 1 / 10 }
    pure (obj, surf1, surf2)

/-- One u-direction derivative step (level `k`) on a control grid, following
the spec §4.3 recurrence along the u index. -/
def surfDerivStepU (degree : ℤ) (kv : List ℚ) (k : ℤ)
    (grid : List (List (List ℚ))) : Except PyEx (List (List (List ℚ))) :=
  (pyrange 0 ((grid.length : ℤ) - 1)).foldlM
    (fun (acc : List (List (List ℚ))) i => do
      let rA ← pyGet grid (i + 1)
      let rB ← pyGet grid i
      let kvA ← pyGet kv (i + degree + k)
      let kvB ← pyGet kv (i + k)
      let coef ← pydiv ((degree : ℚ) - (k : ℚ) + 1) (kvA - kvB)
      pure (acc ++ [List.zipWith
        (fun pa pb => (pa.zipWith (· - ·) pb).map (fun x => coef * x)) rA rB]))
    []

/-- One v-direction derivative step (level `k`) on a control grid. -/
def surfDerivStepV (degree : ℤ) (kv : List ℚ) (k : ℤ)
    (grid : List (List (List ℚ))) : Except PyEx (List (List (List ℚ))) :=
  grid.mapM (fun row =>
    (pyrange 0 ((row.length : ℤ) - 1)).foldlM
      (fun (acc : List (List ℚ)) j => do
        let pA ← pyGet row (j + 1)
        let pB ← pyGet row j
        let kvA ← pyGet kv (j + degree + k)
        let kvB ← pyGet kv (j + k)
        let coef ← pydiv ((degree : ℚ) - (k : ℚ) + 1) (kvA - kvB)
        pure (acc ++ [(pA.zipWith (· - ·) pB).map (fun x => coef * x)]))
      [])

/-- Iterated u-direction derivative steps `1..k`. -/
def surfDerivU (degree : ℤ) (kv : List ℚ) (k : ℕ)
    (grid : List (List (List ℚ))) : Except PyEx (List (List (List ℚ))) :=
  (List.range k).foldlM
    (fun g k0 => surfDerivStepU degree kv ((k0 : ℤ) + 1) g) grid

/-- Iterated v-direction derivative steps `1..l`. -/
def surfDerivV (degree : ℤ) (kv : List ℚ) (l : ℕ)
    (grid : List (List (List ℚ))) : Except PyEx (List (List (List ℚ))) :=
  (List.range l).foldlM
    (fun g l0 => surfDerivStepV degree kv ((l0 : ℤ) + 1) g) grid

/-- Modelled from the spec: `evaluators.SurfaceEvaluator2.derivatives_ctrlpts`
is not under `src/`; spec §4.3 — "the same recurrence is applied independently
along each parametric direction then combined".  `pkl[k][l]` is the control
net after `k` u-steps and `l` v-steps, computed for `0 <= k + l <= d`
(src/geomdl/operations.py:423), empty beyond.  As in `derivatives_ctrlpts`
the evaluator's tables keep the original grid size, so a `(k, l)` net ends
with `k` placeholder rows and every row with `l` placeholder entries (sliced
off by the in-`src/` caller); placeholders are modelled as zero points. -/
def surface_derivatives_ctrlpts (s : Surface) (d : ℕ) :
    Except PyEx (List (List (List (List (List ℚ))))) :=
  let szV := (s.ctrlpts2d.headD []).length
  let filler : List ℚ :=
    List.replicate ((s.ctrlpts2d.headD []).headD []).length 0
  (List.range (d + 1)).mapM (fun k =>
    (List.range (d + 1)).mapM (fun l =>
      if k + l ≤ d then do
        let g ← surfDerivU s.degree_u s.knotvector_u k s.ctrlpts2d
        let g ← surfDerivV s.degree_v s.knotvector_v l g
        pure ((g.map (fun row => row ++ List.replicate l filler))
          ++ List.replicate k (List.replicate szV filler))
      else pure []))

/-- The heterogeneous return value of `derivative_surface`: the rational branch
returns the single input surface, the normal branch a triple. -/
inductive SurfDerivResult where
  | single (s : Surface) : SurfDerivResult
  | triple (su sv suv : Surface) : SurfDerivResult
deriving Repr, DecidableEq

/-- `derivative_surface` (src/geomdl/operations.py:398-467): on a rational
surface it warns and returns the input object itself; otherwise it builds the
U-, V- and UV-derivative surfaces from the derivative control nets. -/
def derivative_surface (obj : Surface) : List String × Except PyEx SurfDerivResult :=
  if obj.rational then
    (["Cannot compute hodograph surface for a rational surface"], .ok (.single obj))
  else
    ([], do
      let pkl ← surface_derivatives_ctrlpts obj 2
      let pkl1 ← pyGet pkl 1
      let p10 ← pyGet pkl1 0
      let ctrlpts2d_u := pySlice p10 0 ((p10.length : ℤ) - 1)
      let surf_u : Surface :=
        { obj with degree_u := obj.degree_u - 1, ctrlpts2d := ctrlpts2d_u,
                   knotvector_u := pySlice obj.knotvector_u 1 (-1) }
      let pkl0 ← pyGet pkl 0
      let p01 ← pyGet pkl0 1
      let ctrlpts2d_v := p01.map (fun row => pySlice row 0 (-1))
      let surf_v : Surface :=
        { obj with degree_v := obj.degree_v - 1, ctrlpts2d := ctrlpts2d_v,
                   knotvector_v := pySlice obj.knotvector_v 1 (-1) }
      let p11 ← pyGet pkl1 1
      let ctrlpts2d_uv := (pySlice p11 0 ((p11.length : ℤ) - 1)).map
        (fun row => pySlice row 0 (-1))
      let surf_uv : Surface :=
        { degree_u := obj.degree_u - 1, degree_v := obj.degree_v - 1,
          knotvector_u := pySlice obj.knotvector_u 1 (-1),
          knotvector_v := pySlice obj.knotvector_v 1 (-1),
          ctrlpts2d := ctrlpts2d_uv, rational := obj.rational,
          delta := obj.delta }
      pure (.triple surf_u surf_v surf_uv))

/-! ## Basic facts about the Python primitives -/

@[simp] theorem exceptBind_ok {ε α β : Type} (a : α) (f : α → Except ε β) :
    (Except.ok a >>= f : Except ε β) = f a := rfl

@[simp] theorem exceptBind_err {ε α β : Type} (e : ε) (f : α → Except ε β) :
    ((Except.error e : Except ε α) >>= f) = .error e := rfl

@[simp] theorem exceptMap_ok {ε α β : Type} (a : α) (f : α → β) :
    (f <$> (Except.ok a : Except ε α)) = .ok (f a) := rfl

@[simp] theorem exceptMap_err {ε α β : Type} (e : ε) (f : α → β) :
    (f <$> (Except.error e : Except ε α)) = .error e := rfl

@[simp] theorem exceptPure_eq {ε α : Type} (a : α) :
    (pure a : Except ε α) = .ok a := rfl

instance exceptDecEq {ε α : Type} [DecidableEq ε] [DecidableEq α] :
    DecidableEq (Except ε α) := fun a b =>
  match a, b with
  | .ok x, .ok y =>
    if h : x = y then .isTrue (by rw [h])
    else .isFalse (by intro hh; cases hh; exact h rfl)
  | .error x, .error y =>
    if h : x = y then .isTrue (by rw [h])
    else .isFalse (by intro hh; cases hh; exact h rfl)
  | .ok _, .error _ => .isFalse (fun h => Except.noConfusion h)
  | .error _, .ok _ => .isFalse (fun h => Except.noConfusion h)

theorem pyGet_head {α : Type} (l : List α) (a : α) (h : l.head? = some a) :
    pyGet l 0 = .ok a := by
  cases l with
  | nil => simp at h
  | cons x t =>
    simp only [List.head?_cons, Option.some.injEq] at h
    subst h
    simp [pyGet, pyIdx]

theorem pyGet_last {α : Type} (l : List α) (a : α) (h : l.getLast? = some a) :
    pyGet l (-1) = .ok a := by
  cases l with
  | nil => simp at h
  | cons x t =>
    have hidx : pyIdx (t.length + 1) (-1) = some t.length := by
      simp only [pyIdx]
      rw [if_neg (by omega), if_pos (by omega)]
      congr 1
      omega
    have hget : (x :: t)[t.length]? = some a := by
      have := List.getLast?_eq_getElem? (x :: t)
      simp only [List.length_cons, Nat.add_sub_cancel] at this
      rw [← this]
      exact h
    simp only [pyGet, List.length_cons, hidx]
    rw [hget]

/-! ## Claim theorems -/

/-- C10: for every non-empty knot vector whose first and last values are equal,
`knotvector_normalize` raises an unguarded division-by-zero error instead of
returning a normalized vector (the only guard is the emptiness check, after
which every element is divided by `last_knot - first_knot`). -/
theorem knotvector_normalize_flat_div_zero (kv : List ℚ) (k : ℚ)
    (h1 : kv.head? = some k) (h2 : kv.getLast? = some k) :
    knotvector_normalize kv = .error "ZeroDivisionError" := by
  cases kv with
  | nil => simp at h1
  | cons x t =>
    simp only [List.head?_cons, Option.some.injEq] at h1
    subst h1
    have hget0 : pyGet (x :: t) 0 = .ok x := pyGet_head _ _ rfl
    have hgetl : pyGet (x :: t) (-1) = .ok x := pyGet_last _ _ h2
    simp [knotvector_normalize, hget0, hgetl, pydiv, sub_self]

/-- C10 witness: the constant knot vector `[1, 1]`. -/
theorem knotvector_normalize_flat_div_zero_app :
    knotvector_normalize [1, 1] = .error "ZeroDivisionError" :=
  knotvector_normalize_flat_div_zero [1, 1] 1 rfl rfl

/-- C7: on every rational curve (surface), `derivative_curve`
(`derivative_surface`) emits a warning — a recoverable condition, not a hard
failure — and returns the input shape itself unchanged, without computing
derivative control points. -/
theorem derivative_rational_warn_and_return (c : Curve) (s : Surface)
    (hc : c.rational = true) (hs : s.rational = true) :
    derivative_curve c =
      (["Cannot compute hodograph curve for a rational curve"], .ok c) ∧
    derivative_surface s =
      (["Cannot compute hodograph surface for a rational surface"],
        .ok (.single s)) := by
  unfold derivative_curve derivative_surface
  rw [hc, hs]
  simp

/-- C7 witness: a concrete rational curve and surface. -/
theorem derivative_rational_warn_and_return_app :
    derivative_curve
        { degree := 1, knotvector := [0, 0, 1, 1],
          ctrlpts := [[0, 0], [1, 1]], rational := true,
          dimension := 2, delta := 1 / 10 } =
      (["Cannot compute hodograph curve for a rational curve"],
        .ok { degree := 1, knotvector := [0, 0, 1, 1],
              ctrlpts := [[0, 0], [1, 1]], rational := true,
              dimension := 2, delta := 1 / 10 }) ∧
    derivative_surface
        { degree_u := 1, degree_v := 1, knotvector_u := [0, 0, 1, 1],
          knotvector_v := [0, 0, 1, 1],
          ctrlpts2d := [[[0, 0], [0, 1]], [[1, 0], [1, 1]]],
          rational := true, delta := 1 / 10 } =
      (["Cannot compute hodograph surface for a rational surface"],
        .ok (.single
          { degree_u := 1, degree_v := 1, knotvector_u := [0, 0, 1, 1],
            knotvector_v := [0, 0, 1, 1],
            ctrlpts2d := [[[0, 0], [0, 1]], [[1, 0], [1, 1]]],
            rational := true, delta := 1 / 10 })) :=
  derivative_rational_warn_and_return _ _ rfl rfl

/-- C6 (amended): `split_curve`, `split_surface_u` and `split_surface_v`
reject a split parameter that is exactly equal to the first or last knot of
the relevant knot vector (the comparison in the source is `==`, not a
tolerance test). -/
theorem split_rejects_exact_boundary :
    (∀ (c : Curve) (u k0 kl : ℚ), c.knotvector.head? = some k0 →
      c.knotvector.getLast? = some kl → u = k0 ∨ u = kl →
      split_curve c u = .error "Cannot split on the corner points") ∧
    (∀ (s : Surface) (t k0 kl : ℚ), s.knotvector_u.head? = some k0 →
      s.knotvector_u.getLast? = some kl → t = k0 ∨ t = kl →
      split_surface_u s t = .error "Cannot split on the edge") ∧
    (∀ (s : Surface) (t k0 kl : ℚ), s.knotvector_v.head? = some k0 →
      s.knotvector_v.getLast? = some kl → t = k0 ∨ t = kl →
      split_surface_v s t = .error "Cannot split on the edge") := by
  refine ⟨fun c u k0 kl h0 hl hor => ?_, fun s t k0 kl h0 hl hor => ?_,
    fun s t k0 kl h0 hl hor => ?_⟩
  · unfold split_curve
    rw [pyGet_head _ _ h0]
    simp only [exceptBind_ok]
    rw [pyGet_last _ _ hl]
    simp only [exceptBind_ok]
    rw [if_pos hor]
  · unfold split_surface_u
    rw [pyGet_head _ _ h0]
    simp only [exceptBind_ok]
    rw [pyGet_last _ _ hl]
    simp only [exceptBind_ok]
    rw [if_pos hor]
  · unfold split_surface_v
    rw [pyGet_head _ _ h0]
    simp only [exceptBind_ok]
    rw [pyGet_last _ _ hl]
    simp only [exceptBind_ok]
    rw [if_pos hor]

/-- C6 witness: concrete boundary splits are rejected. -/
theorem split_rejects_exact_boundary_app :
    split_curve
        { degree := 1, knotvector := [0, 0, 1, 1],
          ctrlpts := [[0, 0], [1, 1]], rational := false,
          dimension := 2, delta := 1 / 10 } 1 =
      .error "Cannot split on the corner points" ∧
    split_surface_u
        { degree_u := 1, degree_v := 1, knotvector_u := [0, 0, 1, 1],
          knotvector_v := [0, 0, 1, 1],
          ctrlpts2d := [[[0, 0], [0, 1]], [[1, 0], [1, 1]]],
          rational := false, delta := 1 / 10 } 0 =
      .error "Cannot split on the edge" ∧
    split_surface_v
        { degree_u := 1, degree_v := 1, knotvector_u := [0, 0, 1, 1],
          knotvector_v := [0, 0, 1, 1],
          ctrlpts2d := [[[0, 0], [0, 1]], [[1, 0], [1, 1]]],
          rational := false, delta := 1 / 10 } 1 =
      .error "Cannot split on the edge" :=
  ⟨split_rejects_exact_boundary.1 _ 1 0 1 rfl rfl (Or.inr rfl),
   split_rejects_exact_boundary.2.1 _ 0 0 1 rfl rfl (Or.inl rfl),
   split_rejects_exact_boundary.2.2 _ 1 0 1 rfl rfl (Or.inr rfl)⟩

/-- C6 counterexample: the claim as stated (rejection of parameters merely
*within tolerance* of an end knot) is false: `u = 1/1000000` is within the
knot-domain tolerance `1e-3` of the first knot `0`, yet `split_curve` does not
reject it — the split proceeds. -/
theorem split_near_boundary_not_rejected :
    |(1 : ℚ) / 1000000 - 0| ≤ 1 / 1000 ∧
    split_curve
        { degree := 1, knotvector := [0, 0, 1 / 2, 1, 1],
          ctrlpts := [[0, 0], [1, 0], [2, 0]], rational := false,
          dimension := 2, delta := 1 / 10 } (1 / 1000000) ≠
      .error "Cannot split on the corner points" := by
  constructor
  · rw [sub_zero, abs_of_pos (by norm_num)]
    norm_num
  · decide

/-- C8: whenever `split_curve` succeeds, the caller's curve comes out of the
call with its degree, knot vector and control points exactly as they went in:
all work happens on the deep copy and the two returned pieces are freshly
constructed instances. -/
theorem split_curve_input_unchanged (obj : Curve) (u : ℚ)
    (res : Curve × Curve × Curve) (h : split_curve obj u = .ok res) :
    res.1 = obj ∧ res.1.degree = obj.degree ∧
    res.1.knotvector = obj.knotvector ∧ res.1.ctrlpts = obj.ctrlpts := by
  have hfst : res.1 = obj := by
    unfold split_curve at h
    cases h0 : pyGet obj.knotvector 0 with
    | error e => rw [h0] at h; simp at h
    | ok kv0 =>
      rw [h0] at h
      simp only [exceptBind_ok] at h
      cases hl : pyGet obj.knotvector (-1) with
      | error e => rw [hl] at h; simp at h
      | ok kvl =>
        rw [hl] at h
        simp only [exceptBind_ok] at h
        split at h
        · simp at h
        · cases hs : find_span_linear obj.degree obj.knotvector
              (obj.ctrlpts.length : ℤ) u with
          | error e => rw [hs] at h; simp at h
          | ok span0 =>
            rw [hs] at h
            simp only [exceptBind_ok] at h
            cases hi : curveInsertKnot obj u
                (obj.degree - find_multiplicity_h u obj.knotvector) with
            | error e => rw [hi] at h; simp at h
            | ok tobj =>
              rw [hi] at h
              simp only [exceptBind_ok] at h
              cases hs2 : find_span_linear tobj.degree tobj.knotvector
                  (tobj.ctrlpts.length : ℤ) u with
              | error e => rw [hs2] at h; simp at h
              | ok span2 =>
                rw [hs2] at h
                simp only [exceptBind_ok, exceptPure_eq, Except.ok.injEq] at h
                rw [← h]
  exact ⟨hfst, by rw [hfst], by rw [hfst], by rw [hfst]⟩

/-- C8 witness: a concrete successful split leaves the input unchanged. -/
theorem split_curve_input_unchanged_app :
    ((({ degree := 1, knotvector := [0, 0, 1, 1],
         ctrlpts := [[0, 0], [1, 1]], rational := false,
         dimension := 2, delta := 1 / 10 } : Curve),
      ({ degree := 1, knotvector := [0, 0, 1 / 2, 1 / 2],
         ctrlpts := [[0, 0], [1, 1]], rational := false,
         dimension := 2, delta := 1 / 10 } : Curve),
      ({ degree := 1, knotvector := [1 / 2, 1 / 2, 1, 1],
         ctrlpts := [[1, 1], [1, 1]], rational := false,
         dimension := 2, delta := 1 / 10 } : Curve)).1 : Curve) =
      { degree := 1, knotvector := [0, 0, 1, 1],
        ctrlpts := [[0, 0], [1, 1]], rational := false,
        dimension := 2, delta := 1 / 10 } :=
  (split_curve_input_unchanged
    { degree := 1, knotvector := [0, 0, 1, 1],
      ctrlpts := [[0, 0], [1, 1]], rational := false,
      dimension := 2, delta := 1 / 10 } (1 / 2) _ (by decide)).1

/-- C1 failing run: on a degree-1 curve with one interior distinct knot
(`k = 1`), `decompose_curve` returns 4 segments — the two halves of the last
split, the first half again, and the remaining shape — instead of the
`k + 1 = 2` Bezier segments the claim requires, because the loop rebinds its
accumulator to the split result (`curves = split_curve(...)`) and then appends
into that two-element list. -/
theorem decompose_curve_wrong_segments :
    decompose_curve
        { degree := 1, knotvector := [0, 0, 1 / 2, 1, 1],
          ctrlpts := [[0, 0], [1, 0], [2, 0]], rational := false,
          dimension := 2, delta := 1 / 10 } 10 =
      some (.ok
        [{ degree := 1, knotvector := [0, 0, 1 / 2, 1 / 2],
           ctrlpts := [[0, 0], [1, 0]], rational := false,
           dimension := 2, delta := 1 / 10 },
         { degree := 1, knotvector := [1 / 2, 1 / 2, 1, 1],
           ctrlpts := [[1, 0], [2, 0]], rational := false,
           dimension := 2, delta := 1 / 10 },
         { degree := 1, knotvector := [0, 0, 1 / 2, 1 / 2],
           ctrlpts := [[0, 0], [1, 0]], rational := false,
           dimension := 2, delta := 1 / 10 },
         { degree := 1, knotvector := [1 / 2, 1 / 2, 1, 1],
           ctrlpts := [[1, 0], [2, 0]], rational := false,
           dimension := 2, delta := 1 / 10 }]) ∧
    (decompose_curve
        { degree := 1, knotvector := [0, 0, 1 / 2, 1, 1],
          ctrlpts := [[0, 0], [1, 0], [2, 0]], rational := false,
          dimension := 2, delta := 1 / 10 } 10).map
      (Except.map List.length) = some (.ok 4) := by
  constructor
  · decide
  · decide

/-- C3 failing run: rotating a curve whose parameter-zero point is `[1, 0]`
by a full turn (`cos = 1`, `sin = 0`) about the z axis returns control points
translated by the negated origin instead of the original control points: the
final "translate back to the starting location" call in the source is made
without `inplace=True`, so its result is discarded. -/
theorem rotate_full_turn_not_identity :
    rotate
        { degree := 1, knotvector := [0, 0, 1, 1],
          ctrlpts := [[1, 0], [2, 1]], rational := false,
          dimension := 2, delta := 1 / 10 } 1 0 2 =
      .ok { degree := 1, knotvector := [0, 0, 1, 1],
            ctrlpts := [[0, 0], [1, 1]], rational := false,
            dimension := 2, delta := 1 / 10 } ∧
    ([[0, 0], [1, 1]] : List (List ℚ)) ≠ [[1, 0], [2, 1]] := by
  constructor
  · decide
  · decide

/-! ## Fold and array machinery for the A2.3 proofs -/

/-- Whether an embedded Python call returned normally. -/
def isOkE {ε α : Type} : Except ε α → Bool
  | .ok _ => true
  | .error _ => false

theorem isOkE_error {ε α : Type} (e : ε) :
    isOkE (.error e : Except ε α) = false := rfl

theorem foldlM_ok_inv {σ ι : Type} (step : σ → ι → Except PyEx σ) (P : σ → Prop)
    (hstep : ∀ s x s', P s → step s x = .ok s' → P s') :
    ∀ (l : List ι) (s s' : σ), P s → List.foldlM step s l = .ok s' → P s' := by
  intro l
  induction l with
  | nil => intro s s' hP h; simp only [List.foldlM_nil, exceptPure_eq,
      Except.ok.injEq] at h; rwa [← h]
  | cons y t ih =>
    intro s s' hP h
    rw [List.foldlM_cons] at h
    cases hy : step s y with
    | error e => rw [hy] at h; simp at h
    | ok s1 =>
      rw [hy] at h
      simp only [exceptBind_ok] at h
      exact ih s1 s' (hstep s y s1 hP hy) h

theorem foldlM_mem_err {σ ι : Type} [DecidableEq ι]
    (step : σ → ι → Except PyEx σ) (P : σ → Prop) (x0 : ι)
    (hstep : ∀ s x s', P s → step s x = .ok s' → P s')
    (hbad : ∀ s, P s → isOkE (step s x0) = false) :
    ∀ (l : List ι) (s : σ), x0 ∈ l → P s →
      isOkE (List.foldlM step s l) = false := by
  intro l
  induction l with
  | nil => intro s hmem; simp at hmem
  | cons y t ih =>
    intro s hmem hP
    rw [List.foldlM_cons]
    cases hy : step s y with
    | error e => simp [isOkE]
    | ok s1 =>
      simp only [exceptBind_ok]
      rcases List.mem_cons.mp hmem with heq | hmem'
      · exfalso
        have := hbad s hP
        rw [heq, hy] at this
        simp [isOkE] at this
      · exact ih s1 hmem' (hstep s y s1 hP hy)

theorem pyrange_mem (a b x : ℤ) : x ∈ pyrange a b ↔ a ≤ x ∧ x < b := by
  unfold pyrange
  rw [List.mem_map]
  constructor
  · rintro ⟨k, hk, rfl⟩
    rw [List.mem_range] at hk
    omega
  · rintro ⟨h1, h2⟩
    refine ⟨(x - a).toNat, ?_, by omega⟩
    rw [List.mem_range]
    omega


theorem pyrange_empty (a b : ℤ) (h : b ≤ a) : pyrange a b = [] := by
  simp only [pyrange]
  rw [Int.toNat_of_nonpos (by omega)]
  rfl

theorem pySet_ok_length {α : Type} (l l' : List α) (i : ℤ) (a : α)
    (h : pySet l i a = .ok l') : l'.length = l.length := by
  unfold pySet at h
  cases hidx : pyIdx l.length i with
  | none => rw [hidx] at h; simp at h
  | some n =>
    rw [hidx] at h
    simp only [Except.ok.injEq] at h
    rw [← h, List.length_set]

theorem matSet_ok_length (m m' : Mat) (i j : ℤ) (c : Cell)
    (h : matSet m i j c = .ok m') : m'.length = m.length := by
  unfold matSet at h
  cases h1 : pyGet m i with
  | error e => rw [h1] at h; simp at h
  | ok row =>
    rw [h1] at h
    simp only [exceptBind_ok] at h
    cases h2 : pySet row j c with
    | error e => rw [h2] at h; simp at h
    | ok row' =>
      rw [h2] at h
      simp only [exceptBind_ok] at h
      exact pySet_ok_length m m' i row' h

theorem matSet_row_out_of_range (m : Mat) (i j : ℤ) (c : Cell)
    (hi : (m.length : ℤ) ≤ i) :
    isOkE (matSet m i j c) = false := by
  unfold matSet pyGet
  have hidx : pyIdx m.length i = none := by
    unfold pyIdx
    rw [if_neg (by omega), if_neg (by omega)]
  rw [hidx]
  rfl

theorem isOkE_bind_false {α β : Type} (e : Except PyEx α) (f : α → Except PyEx β)
    (h : isOkE e = false) : isOkE (e >>= f) = false := by
  cases e with
  | ok a => simp [isOkE] at h
  | error e => rfl

/-- A successful `k` iteration of A2.3 preserves the number of rows of the
`ders` table (the only write into `ders` is `ders[k][r] = d`). -/
theorem bfdKStep_ok_ders_length (degree : ℤ) (ndu : Mat) (r : ℤ)
    (st st' : Mat × ℤ × ℤ × Mat) (k : ℤ)
    (h : bfdKStep degree ndu r st k = .ok st') :
    st'.2.2.2.length = st.2.2.2.length := by
  obtain ⟨a, s1, s2, ders⟩ := st
  unfold bfdKStep at h
  simp only [] at h
  cases hE1 : bfdKA degree ndu a s1 s2 r k with
  | error e => rw [hE1] at h; simp at h
  | ok p1 =>
    rw [hE1] at h
    simp only [exceptBind_ok] at h
    cases hE2 : bfdKB degree ndu s1 s2 r k p1 with
    | error e => rw [hE2] at h; simp at h
    | ok p2 =>
      rw [hE2] at h
      simp only [exceptBind_ok] at h
      cases hE3 : bfdKC degree ndu s1 s2 r k p2 with
      | error e => rw [hE3] at h; simp at h
      | ok p3 =>
        rw [hE3] at h
        simp only [exceptBind_ok] at h
        cases hE4 : matSet ders k r (some p3.2) with
        | error e => rw [hE4] at h; simp at h
        | ok ders' =>
          rw [hE4] at h
          simp only [exceptBind_ok, exceptPure_eq, Except.ok.injEq] at h
          rw [← h]
          exact matSet_ok_length _ _ _ _ _ hE4

/-- For the first function index `r = 0` and derivative order `k = degree + 1`
(reached whenever `order > degree`), the A2.3 `k` iteration writes
`ders[degree+1][0]`, one row past the end of the `ders` table — an
`IndexError`. -/
theorem bfdKStep_fails (degree : ℤ) (ndu : Mat) (st : Mat × ℤ × ℤ × Mat)
    (hd : 1 ≤ degree) (hlen : st.2.2.2.length = (degree + 1).toNat) :
    isOkE (bfdKStep degree ndu 0 st (degree + 1)) = false := by
  obtain ⟨a, s1, s2, ders⟩ := st
  simp only [] at hlen
  unfold bfdKStep
  have hA : bfdKA degree ndu a s1 s2 0 (degree + 1) = pure (a, 0) := by
    unfold bfdKA
    rw [if_neg (by omega)]
  have hB : bfdKB degree ndu s1 s2 0 (degree + 1) (a, 0) = pure (a, 0) := by
    unfold bfdKB
    rw [if_neg (by omega : ¬((0 : ℤ) - (degree + 1) ≥ -1)),
      if_pos (by omega : (0 : ℤ) - 1 ≤ degree - (degree + 1)),
      pyrange_empty _ _ (by omega)]
    rfl
  have hC : bfdKC degree ndu s1 s2 0 (degree + 1) (a, 0) = pure (a, 0) := by
    unfold bfdKC
    rw [if_neg (by omega)]
  simp only [hA, exceptPure_eq, exceptBind_ok, hB, hC]
  exact isOkE_bind_false _ _
    (matSet_row_out_of_range ders (degree + 1) 0 (some 0) (by omega))

/-- A successful `r` iteration of A2.3 preserves the row count of `ders`. -/
theorem bfdRStep_ok_len (degree order : ℤ) (ndu : Mat) (st st' : Mat × Mat)
    (r : ℤ) (h : bfdRStep degree order ndu st r = .ok st') :
    st'.2.length = st.2.length := by
  obtain ⟨a, ders⟩ := st
  unfold bfdRStep at h
  simp only [] at h
  cases h1 : matSet a 0 0 (some 1) with
  | error e => rw [h1] at h; simp at h
  | ok a1 =>
    rw [h1] at h
    simp only [exceptBind_ok] at h
    cases h2 : (pyrange 1 (order + 1)).foldlM (bfdKStep degree ndu r)
        (a1, (0 : ℤ), (1 : ℤ), ders) with
    | error e => rw [h2] at h; simp at h
    | ok stI =>
      rw [h2] at h
      simp only [exceptBind_ok, exceptPure_eq, Except.ok.injEq] at h
      rw [← h]
      exact foldlM_ok_inv (bfdKStep degree ndu r)
        (fun st4 => st4.2.2.2.length = ders.length)
        (fun s x s' hP hs => by
          show s'.2.2.2.length = ders.length
          rw [bfdKStep_ok_ders_length _ _ _ _ _ _ hs]
          exact hP)
        _ _ _ rfl h2

/-- When `order > degree`, the `r = 0` iteration of A2.3 raises: its `k` loop
reaches `k = degree + 1` and the `ders[k][r]` write is out of range. -/
theorem bfdRStep_fails (degree order : ℤ) (ndu : Mat) (st : Mat × Mat)
    (hd : 1 ≤ degree) (ho : degree < order)
    (hlen : st.2.length = (degree + 1).toNat) :
    isOkE (bfdRStep degree order ndu st 0) = false := by
  obtain ⟨a, ders⟩ := st
  simp only [] at hlen
  unfold bfdRStep
  simp only []
  cases h1 : matSet a 0 0 (some 1) with
  | error e => rfl
  | ok a1 =>
    simp only [exceptBind_ok]
    refine isOkE_bind_false _ _ ?_
    refine foldlM_mem_err (bfdKStep degree ndu 0)
      (fun st4 => st4.2.2.2.length = (degree + 1).toNat) (degree + 1)
      (fun s x s' hP hs => by
        show s'.2.2.2.length = (degree + 1).toNat
        rw [bfdKStep_ok_ders_length _ _ _ _ _ _ hs]
        exact hP)
      (fun s hP => bfdKStep_fails degree ndu s hd hP)
      _ _ (pyrange_mem 1 (order + 1) (degree + 1) |>.mpr ⟨by omega, by omega⟩)
      hlen

/-- C2 (amended): for every `degree >= 1` and all arguments, calling
`basis_functions_ders` with `order > degree` does not return normally: the
`ders` table is allocated with `min(degree, order) + 1` rows but the
derivative loop runs `k` up to `order`, so the write `ders[k][r]` raises an
`IndexError` (or an earlier exception aborts the call first). -/
theorem basis_functions_ders_order_gt_degree_raises (degree : ℤ)
    (knotvector : List ℚ) (span : ℤ) (knot : ℚ) (order : ℤ)
    (hd : 1 ≤ degree) (ho : degree < order) :
    isOkE (basis_functions_ders degree knotvector span knot order) = false := by
  unfold basis_functions_ders
  cases hN : bfdNdu degree knotvector span knot with
  | error e => rfl
  | ok ndu =>
    simp only [exceptBind_ok]
    have hders0 : (List.replicate (min degree order + 1).toNat
        (List.replicate (degree + 1).toNat (none : Cell))).length
        = (degree + 1).toNat := by
      rw [List.length_replicate, min_eq_left ho.le]
    cases hL : bfdLoad degree ndu (List.replicate (min degree order + 1).toNat
        (List.replicate (degree + 1).toNat none)) with
    | error e => rfl
    | ok ders1 =>
      simp only [exceptBind_ok]
      have hlen1 : ders1.length = (degree + 1).toNat := by
        unfold bfdLoad at hL
        have := foldlM_ok_inv
          (fun (ders : Mat) (j : ℤ) => do
            let c ← matCellGet ndu j degree
            matSet ders 0 j c)
          (fun m => m.length = (degree + 1).toNat)
          (fun s x s' hP hs => by
            simp only [] at hs
            cases hc : matCellGet ndu x degree with
            | error e => rw [hc] at hs; simp at hs
            | ok c =>
              rw [hc] at hs
              simp only [exceptBind_ok] at hs
              rw [matSet_ok_length _ _ _ _ _ hs]
              exact hP)
          _ _ _ hders0 hL
        exact this
      refine isOkE_bind_false _ _ ?_
      unfold bfdDerivs
      simp only []
      refine isOkE_bind_false _ _ ?_
      refine foldlM_mem_err (bfdRStep degree order ndu)
        (fun (st : Mat × Mat) => st.2.length = (degree + 1).toNat) 0
        (fun s x s' hP hs => by
          show s'.2.length = (degree + 1).toNat
          rw [bfdRStep_ok_len _ _ _ _ _ _ hs]
          exact hP)
        (fun s hP => bfdRStep_fails degree order ndu s hd ho hP)
        _ _ (pyrange_mem 0 (degree + 1) 0 |>.mpr ⟨le_refl 0, by omega⟩)
        hlen1

/-- C2 witness for the amended claim: a concrete in-range call. -/
theorem basis_functions_ders_order_gt_degree_raises_app :
    isOkE (basis_functions_ders 2 [0, 0, 0, 1, 1, 1] 2 (1 / 2) 3) = false :=
  basis_functions_ders_order_gt_degree_raises 2 [0, 0, 0, 1, 1, 1] 2 (1 / 2) 3
    (by norm_num) (by norm_num)

/-- C2 counterexample to the claim as stated: a perfectly valid call
(`degree = 1`, clamped knot vector `[0,0,1,1]`, `span = 1`, `knot = 1/2`) with
`order = 2 > degree` raises an `IndexError` instead of returning rows of
zeros. -/
theorem basis_functions_ders_order_two_degree_one_raises :
    basis_functions_ders 1 [0, 0, 1, 1] 1 (1 / 2) 2 = .error "IndexError" := by
  decide

/-! ## Machinery for the partition-of-unity proof (A2.2) -/

theorem pyrange_cons (a b : ℤ) (h : a < b) :
    pyrange a b = a :: pyrange (a + 1) b := by
  unfold pyrange
  have hn : (b - a).toNat = (b - (a + 1)).toNat + 1 := by omega
  rw [hn, List.range_succ_eq_map, List.map_cons, List.map_map]
  congr 1
  · omega
  · apply List.map_congr_left
    intro k _
    simp only [Function.comp_apply, Nat.succ_eq_add_one]
    omega

theorem foldlM_pyrange_inv {σ : Type} (step : σ → ℤ → Except PyEx σ)
    (P : ℤ → σ → Prop) (a b : ℤ)
    (hstep : ∀ j s s', a ≤ j → j < b → P j s → step s j = .ok s' → P (j + 1) s') :
    ∀ (s s' : σ), a ≤ b → P a s →
      List.foldlM step s (pyrange a b) = .ok s' → P b s' := by
  have key : ∀ (n : ℕ) (c : ℤ) (s s' : σ), a ≤ c → c ≤ b → (b - c).toNat = n →
      P c s → List.foldlM step s (pyrange c b) = .ok s' → P b s' := by
    intro n
    induction n with
    | zero =>
      intro c s s' hac hcb hn hP h
      rw [pyrange_empty _ _ (by omega)] at h
      simp only [List.foldlM_nil, exceptPure_eq, Except.ok.injEq] at h
      have : c = b := by omega
      rw [← this]
      rwa [← h]
    | succ m ih =>
      intro c s s' hac hcb hn hP h
      rw [pyrange_cons _ _ (by omega), List.foldlM_cons] at h
      cases hc : step s c with
      | error e => rw [hc] at h; simp at h
      | ok s1 =>
        rw [hc] at h
        simp only [exceptBind_ok] at h
        exact ih (c + 1) s1 s' (by omega) (by omega) (by omega)
          (hstep c s s1 hac (by omega) hP hc) h
  intro s s' hab hP h
  exact key (b - a).toNat a s s' le_rfl hab rfl hP h

theorem pyIdx_spec (len : ℕ) (i : ℤ) (n : ℕ) (h : pyIdx len i = some n) :
    n < len ∧ (0 ≤ i → (n : ℤ) = i) := by
  unfold pyIdx at h
  split at h
  · simp only [Option.some.injEq] at h
    constructor
    · omega
    · intro _; omega
  · split at h
    · simp only [Option.some.injEq] at h
      constructor
      · omega
      · intro hi; omega
    · simp at h

theorem pySet_ok_spec {α : Type} (l : List α) (i : ℤ) (a : α) (l' : List α)
    (h : pySet l i a = .ok l') :
    ∃ n : ℕ, pyIdx l.length i = some n ∧ l' = l.set n a := by
  unfold pySet at h
  cases hidx : pyIdx l.length i with
  | none => rw [hidx] at h; simp at h
  | some n =>
    rw [hidx] at h
    simp only [Except.ok.injEq] at h
    exact ⟨n, rfl, h.symm⟩

theorem pyGet_ok_spec {α : Type} (l : List α) (i : ℤ) (a : α)
    (h : pyGet l i = .ok a) :
    ∃ n, pyIdx l.length i = some n ∧ l[n]? = some a := by
  unfold pyGet at h
  cases hidx : pyIdx l.length i with
  | none => rw [hidx] at h; simp at h
  | some n =>
    rw [hidx] at h
    simp only [] at h
    cases hc : l[n]? with
    | none => rw [hc] at h; simp at h
    | some b =>
      rw [hc] at h
      simp only [Except.ok.injEq] at h
      exact ⟨n, rfl, by rw [← h]; exact hc⟩

theorem valGet_ok_spec (l : Arr) (i : ℤ) (q : ℚ) (h : valGet l i = .ok q) :
    ∃ n : ℕ, pyIdx l.length i = some n ∧ l.getD n none = some q := by
  unfold valGet at h
  cases hg : pyGet l i with
  | error e => rw [hg] at h; simp at h
  | ok c =>
    rw [hg] at h
    simp only [exceptBind_ok] at h
    cases c with
    | none => simp at h
    | some q2 =>
      simp only [Except.ok.injEq] at h
      obtain ⟨n, hidx, hc⟩ := pyGet_ok_spec l i (some q2) hg
      refine ⟨n, hidx, ?_⟩
      rw [List.getD_eq_getElem?_getD, hc, h]
      rfl

/-- The running total of an A2.2 scratch array (`None` counts as 0). -/
def sumArr (N : Arr) : ℚ := (N.map (fun c => c.getD 0)).sum

theorem sumArr_set (N : Arr) (n : ℕ) (v : ℚ) (hn : n < N.length) :
    sumArr (N.set n (some v)) = sumArr N - (N.getD n none).getD 0 + v := by
  induction N generalizing n with
  | nil => simp at hn
  | cons x t ih =>
    cases n with
    | zero =>
      simp only [List.set_cons_zero, sumArr, List.map_cons, List.sum_cons,
        List.getD_cons_zero, Option.getD_some]
      ring
    | succ m =>
      simp only [List.set_cons_succ, sumArr, List.map_cons, List.sum_cons,
        List.getD_cons_succ]
      have := ih m (by simpa using Nat.lt_of_succ_lt_succ hn)
      simp only [sumArr] at this
      rw [this]
      ring

theorem getD_set_self {α : Type} (l : List α) (n : ℕ) (v d : α)
    (hn : n < l.length) : (l.set n v).getD n d = v := by
  induction l generalizing n with
  | nil => simp at hn
  | cons x t ih =>
    cases n with
    | zero => simp
    | succ m => simpa using ih m (by simpa using Nat.lt_of_succ_lt_succ hn)

theorem getD_set_ne {α : Type} (l : List α) (n m : ℕ) (v d : α)
    (h : n ≠ m) : (l.set n v).getD m d = l.getD m d := by
  induction l generalizing n m with
  | nil => simp
  | cons x t ih =>
    cases n with
    | zero =>
      cases m with
      | zero => exact absurd rfl h
      | succ m2 => simp
    | succ n2 =>
      cases m with
      | zero => simp
      | succ m2 => simpa using ih n2 m2 (by omega)

/-- Cell state of the A2.2 scratch array just before outer iteration `j`:
cells `0..j-1` are written (`some`), cells `j..` still hold `None`. -/
def cellPat (len : ℕ) (j : ℤ) (N : Arr) : Prop :=
  ∀ i : ℕ, i < len →
    (j ≤ (i : ℤ) → N.getD i none = none) ∧
    ((i : ℤ) < j → (N.getD i none).isSome = true)

theorem getD_replicate_none (D i : ℕ) :
    (List.replicate D (none : Cell)).getD i none = none := by
  induction D generalizing i with
  | zero => simp
  | succ m ih =>
    cases i with
    | zero => simp [List.replicate_succ]
    | succ k =>
      rw [List.replicate_succ, List.getD_cons_succ]
      exact ih k

theorem sumArr_replicate_none (D : ℕ) :
    sumArr (List.replicate D (none : Cell)) = 0 := by
  induction D with
  | zero => rfl
  | succ m ih =>
    rw [List.replicate_succ]
    simp only [sumArr, List.map_cons, List.sum_cons, Option.getD_none] at ih ⊢
    rw [ih]
    ring

/-- A successful inner A2.2 step keeps the invariant: the telescoping total
`sum(N) + saved` is unchanged (the two-term recurrence redistributes `N[r]`),
the array length is unchanged, and the cell pattern is unchanged. -/
theorem bfInner_inv (left right : Arr) (j : ℤ) (len : ℕ) (base : ℚ)
    (p p' : Arr × ℚ) (r : ℤ) (hr0 : 0 ≤ r) (hrj : r < j)
    (hlen : p.1.length = len) (hsum : sumArr p.1 + p.2 = base)
    (hpat : cellPat len j p.1) (h : bfInner left right j p r = .ok p') :
    p'.1.length = len ∧ sumArr p'.1 + p'.2 = base ∧ cellPat len j p'.1 := by
  obtain ⟨N, saved⟩ := p
  simp only [] at hlen hsum hpat
  unfold bfInner at h
  cases h1 : valGet N r with
  | error e => rw [h1] at h; simp at h
  | ok nr =>
    rw [h1] at h
    simp only [exceptBind_ok] at h
    cases h2 : valGet right (r + 1) with
    | error e => rw [h2] at h; simp at h
    | ok rr =>
      rw [h2] at h
      simp only [exceptBind_ok] at h
      cases h3 : valGet left (j - r) with
      | error e => rw [h3] at h; simp at h
      | ok lj =>
        rw [h3] at h
        simp only [exceptBind_ok] at h
        unfold pydiv at h
        split at h
        · simp at h
        · rename_i hden
          simp only [exceptBind_ok] at h
          cases h5 : pySet N r (some (saved + rr * (nr / (rr + lj)))) with
          | error e => rw [h5] at h; simp at h
          | ok N2 =>
            rw [h5] at h
            simp only [exceptBind_ok, exceptPure_eq, Except.ok.injEq] at h
            obtain ⟨n, hidx, hcell⟩ := valGet_ok_spec N r nr h1
            obtain ⟨hnlt, hn⟩ := pyIdx_spec _ _ _ hidx
            obtain ⟨n2, hidx2, hset⟩ := pySet_ok_spec N r _ N2 h5
            rw [hidx] at hidx2
            injection hidx2 with hn2
            rw [← hn2] at hset
            have hni : (n : ℤ) = r := hn hr0
            subst hset
            rw [← h]
            refine ⟨by simpa using hlen, ?_, ?_⟩
            · simp only []
              rw [sumArr_set N n _ (by omega), hcell]
              simp only [Option.getD_some]
              have hkey : rr * (nr / (rr + lj)) + lj * (nr / (rr + lj)) = nr := by
                field_simp
                ring
              linarith [hsum]
            · intro i hiD
              rcases eq_or_ne i n with rfl | hne
              · constructor
                · intro hji
                  omega
                · intro _
                  rw [getD_set_self _ _ _ _ (by omega)]
                  rfl
              · rw [getD_set_ne _ _ _ _ _ (fun hh => hne hh.symm)]
                exact hpat i hiD

/-- A successful outer A2.2 iteration `j` advances the invariant from `j` to
`j + 1`: the new `N[j] = saved` lands on a `None` cell, so the total is
conserved at 1. -/
theorem bfOuter_inv (knotvector : List ℚ) (span : ℤ) (knot : ℚ) (D : ℕ)
    (j : ℤ) (st st' : Arr × Arr × Arr) (hj1 : 1 ≤ j)
    (hlen : st.2.2.length = D) (hsum : sumArr st.2.2 = 1)
    (hpat : cellPat D j st.2.2)
    (h : bfOuter knotvector span knot st j = .ok st') :
    st'.2.2.length = D ∧ sumArr st'.2.2 = 1 ∧ cellPat D (j + 1) st'.2.2 := by
  obtain ⟨left, right, N⟩ := st
  simp only [] at hlen hsum hpat
  unfold bfOuter at h
  cases g1 : pyGet knotvector (span + 1 - j) with
  | error e => rw [g1] at h; simp at h
  | ok kv1 =>
    rw [g1] at h
    simp only [exceptBind_ok] at h
    cases g2 : pySet left j (some (knot - kv1)) with
    | error e => rw [g2] at h; simp at h
    | ok left2 =>
      rw [g2] at h
      simp only [exceptBind_ok] at h
      cases g3 : pyGet knotvector (span + j) with
      | error e => rw [g3] at h; simp at h
      | ok kv2 =>
        rw [g3] at h
        simp only [exceptBind_ok] at h
        cases g4 : pySet right j (some (kv2 - knot)) with
        | error e => rw [g4] at h; simp at h
        | ok right2 =>
          rw [g4] at h
          simp only [exceptBind_ok] at h
          cases gf : (pyrange 0 j).foldlM (bfInner left2 right2 j)
              (N, (0 : ℚ)) with
          | error e => rw [gf] at h; simp at h
          | ok p2 =>
            rw [gf] at h
            simp only [exceptBind_ok] at h
            cases g5 : pySet p2.1 j (some p2.2) with
            | error e => rw [g5] at h; simp at h
            | ok N3 =>
              rw [g5] at h
              simp only [exceptBind_ok, exceptPure_eq, Except.ok.injEq] at h
              have hinner : p2.1.length = D ∧ sumArr p2.1 + p2.2 = 1 ∧
                  cellPat D j p2.1 := by
                refine foldlM_pyrange_inv (bfInner left2 right2 j)
                  (fun _ (p : Arr × ℚ) => p.1.length = D ∧
                    sumArr p.1 + p.2 = 1 ∧ cellPat D j p.1)
                  0 j ?_ (N, (0 : ℚ)) p2 (by omega) ?_ gf
                · intro r s s' hr0 hrj hP hs
                  exact bfInner_inv left2 right2 j D 1 s s' r hr0 hrj
                    hP.1 hP.2.1 hP.2.2 hs
                · exact ⟨hlen, by simpa using hsum, hpat⟩
              obtain ⟨hlen2, hsum2, hpat2⟩ := hinner
              obtain ⟨n, hidx, hset⟩ := pySet_ok_spec p2.1 j _ N3 g5
              obtain ⟨hnlt, hn⟩ := pyIdx_spec _ _ _ hidx
              have hnj : (n : ℤ) = j := hn (by omega)
              have hcellj : p2.1.getD n none = none :=
                (hpat2 n (by omega)).1 (by omega)
              subst hset
              rw [← h]
              refine ⟨by simpa using hlen2, ?_, ?_⟩
              · simp only []
                rw [sumArr_set _ _ _ (by omega), hcellj]
                simp only [Option.getD_none]
                linarith [hsum2]
              · intro i hiD
                rcases eq_or_ne i n with rfl | hne
                · constructor
                  · intro hji
                    omega
                  · intro _
                    rw [getD_set_self _ _ _ _ (by omega)]
                    rfl
                · simp only []
                  rw [getD_set_ne _ _ _ _ _ (fun hh => hne hh.symm)]
                  constructor
                  · intro hji
                    exact (hpat2 i hiD).1 (by omega)
                  · intro hij
                    have : (i : ℤ) < j := by omega
                    exact (hpat2 i hiD).2 this

/-- C4: whenever Algorithm A2.2 returns normally, it returns `degree + 1`
written values whose exact sum is 1 (partition of unity): each inner step
redistributes `N[r]` over the two-term recurrence without loss, so the total
seeded by `N[0] = 1` is conserved. -/
theorem basis_functions_partition_of_unity (degree : ℤ) (knotvector : List ℚ)
    (span : ℤ) (knot : ℚ) (N : Arr)
    (h : basis_functions degree knotvector span knot = .ok N) :
    N.length = (degree + 1).toNat ∧ (∀ c ∈ N, c.isSome = true) ∧
    sumArr N = 1 := by
  unfold basis_functions at h
  simp only [] at h
  cases h0 : pySet (List.replicate (degree + 1).toNat (none : Cell)) 0
      (some 1) with
  | error e => rw [h0] at h; simp at h
  | ok N1 =>
    rw [h0] at h
    simp only [exceptBind_ok] at h
    obtain ⟨n0, hidx0, hset0⟩ := pySet_ok_spec _ _ _ _ h0
    obtain ⟨hn0lt, hn0⟩ := pyIdx_spec _ _ _ hidx0
    have hn00 : n0 = 0 := by
      have := hn0 le_rfl
      omega
    subst hn00
    rw [List.length_replicate] at hn0lt
    subst hset0
    cases hf : (pyrange 1 (degree + 1)).foldlM
        (bfOuter knotvector span knot)
        (List.replicate (degree + 1).toNat none,
         List.replicate (degree + 1).toNat none,
         (List.replicate (degree + 1).toNat none).set 0 (some 1)) with
    | error e => rw [hf] at h; simp at h
    | ok stF =>
      rw [hf] at h
      simp only [exceptBind_ok, exceptPure_eq, Except.ok.injEq] at h
      have hfinal : stF.2.2.length = (degree + 1).toNat ∧
          sumArr stF.2.2 = 1 ∧ cellPat (degree + 1).toNat (degree + 1) stF.2.2 := by
        refine foldlM_pyrange_inv (bfOuter knotvector span knot)
          (fun j st => st.2.2.length = (degree + 1).toNat ∧
            sumArr st.2.2 = 1 ∧ cellPat (degree + 1).toNat j st.2.2)
          1 (degree + 1) ?_ _ stF (by omega) ?_ hf
        · intro j s s' hj1 hjb hP hs
          exact bfOuter_inv knotvector span knot _ j s s' hj1 hP.1 hP.2.1
            hP.2.2 hs
        · refine ⟨by simp, ?_, ?_⟩
          · simp only []
            rw [sumArr_set _ _ _ (by simpa using hn0lt), getD_replicate_none,
              sumArr_replicate_none]
            simp
          · intro i hiD
            rcases Nat.eq_zero_or_pos i with rfl | hip
            · constructor
              · intro hji
                omega
              · intro _
                rw [getD_set_self _ _ _ _ (by simpa using hn0lt)]
                rfl
            · constructor
              · intro _
                rw [getD_set_ne _ _ _ _ _ (by omega), getD_replicate_none]
              · intro hij
                omega
      obtain ⟨hL, hS, hPat⟩ := hfinal
      rw [← h]
      refine ⟨hL, ?_, hS⟩
      intro c hc
      obtain ⟨i, hi, hgi⟩ := List.mem_iff_getElem.mp hc
      have hgd : stF.2.2.getD i none = c := by
        rw [List.getD_eq_getElem?_getD, List.getElem?_eq_getElem hi, hgi]
        rfl
      have := (hPat i (by omega)).2 (by omega)
      rwa [hgd] at this

/-- C4 witness: a concrete basis evaluation sums to exactly 1. -/
theorem basis_functions_partition_of_unity_app :
    sumArr [some ((1 : ℚ) / 2), some (1 / 2)] = 1 ∧
    basis_functions 1 [0, 0, 1, 1] 1 (1 / 2) =
      .ok [some (1 / 2), some (1 / 2)] :=
  ⟨(basis_functions_partition_of_unity 1 [0, 0, 1, 1] 1 (1 / 2)
      [some (1 / 2), some (1 / 2)] (by decide)).2.2, by decide⟩

/-! ## Binary-search correctness for `find_span` (A2.1) -/

theorem pyGet_inrange (kv : List ℚ) (i : ℤ) (h0 : 0 ≤ i)
    (hl : i < (kv.length : ℤ)) :
    pyGet kv i = .ok (kv.getD i.toNat 0) := by
  unfold pyGet pyIdx
  rw [if_pos ⟨h0, hl⟩]
  have hlt : i.toNat < kv.length := by omega
  simp only [List.getElem?_eq_getElem hlt]
  rw [List.getD_eq_getElem _ _ hlt]

theorem chain_getD_mono (kv : List ℚ) (hc : List.Chain' (· ≤ ·) kv)
    (i j : ℕ) (hij : i ≤ j) (hj : j < kv.length) :
    kv.getD i 0 ≤ kv.getD j 0 := by
  rcases eq_or_lt_of_le hij with rfl | hlt
  · exact le_refl _
  · have hp := List.chain'_iff_pairwise.mp hc
    have := List.pairwise_iff_getElem.mp hp i j (by omega) hj hlt
    rwa [List.getD_eq_getElem _ _ (by omega), List.getD_eq_getElem _ _ hj]

/-- Correctness and termination of the `find_span` binary-search loop under
the loop invariant `kv[low] <= knot < kv[high]`. -/
theorem findSpanLoop_correct (kv : List ℚ) (knot : ℚ) :
    ∀ (fuel : ℕ) (low high : ℤ), 0 ≤ low → low < high →
    high < (kv.length : ℤ) →
    kv.getD low.toNat 0 ≤ knot → knot < kv.getD high.toNat 0 →
    (high - low).toNat ≤ fuel →
    ∃ i : ℤ, findSpanLoop kv knot fuel low high = some (.ok i) ∧
      low ≤ i ∧ i < high ∧
      kv.getD i.toNat 0 ≤ knot ∧ knot < kv.getD (i.toNat + 1) 0 := by
  intro fuel
  induction fuel with
  | zero =>
    intro low high _ hlh _ _ _ hfuel
    omega
  | succ f ih =>
    intro low high hl0 hlh hhlen hlow hhigh hfuel
    have hmid0 : 0 ≤ (low + high) / 2 := by omega
    have hmidlo : low ≤ (low + high) / 2 := by omega
    have hmidhi : (low + high) / 2 < high := by omega
    set mid : ℤ := (low + high) / 2 with hmid
    have hg1 : pyGet kv mid = .ok (kv.getD mid.toNat 0) :=
      pyGet_inrange kv mid (by omega) (by omega)
    have hg2 : pyGet kv (mid + 1) = .ok (kv.getD (mid.toNat + 1) 0) := by
      have := pyGet_inrange kv (mid + 1) (by omega) (by omega)
      rwa [show (mid + 1).toNat = mid.toNat + 1 by omega] at this
    unfold findSpanLoop
    simp only []
    rw [← hmid, hg1, hg2]
    simp only []
    by_cases hlt : knot < kv.getD mid.toNat 0
    · have hmidne : low < mid := by
        rcases eq_or_lt_of_le hmidlo with heq | h
        · exfalso
          rw [← heq] at hlt
          exact absurd hlow (not_le.mpr hlt)
        · exact h
      rw [if_pos (Or.inl hlt), if_pos hlt]
      obtain ⟨i, hrec, hi1, hi2, hi3, hi4⟩ := ih low mid hl0 hmidne
        (by omega) hlow hlt (by omega)
      exact ⟨i, hrec, hi1, by omega, hi3, hi4⟩
    · by_cases hge : knot ≥ kv.getD (mid.toNat + 1) 0
      · have hmidne : low < mid := by
          rcases eq_or_lt_of_le hmidlo with heq | h
          · exfalso
            have hmh : mid + 1 = high := by omega
            have : kv.getD (mid.toNat + 1) 0 = kv.getD high.toNat 0 := by
              rw [show mid.toNat + 1 = high.toNat by omega]
            rw [this] at hge
            exact absurd hhigh (not_lt.mpr hge)
          · exact h
        rw [if_pos (Or.inr hge), if_neg hlt]
        have hmidle : kv.getD mid.toNat 0 ≤ knot := not_lt.mp hlt
        obtain ⟨i, hrec, hi1, hi2, hi3, hi4⟩ := ih mid high (by omega)
          (by omega) hhlen hmidle hhigh (by omega)
        exact ⟨i, hrec, by omega, hi2, hi3, hi4⟩
      · rw [if_neg (by push_neg; exact ⟨not_lt.mp hlt, not_le.mp hge⟩)]
        exact ⟨mid, rfl, hmidlo, hmidhi, not_lt.mp hlt, not_le.mp hge⟩

/-- C5: on a non-decreasing knot vector satisfying the data-model length
invariant (`len(kv) = degree + numCtrlpts + 1`, which holds for every clamped
knot vector) and a knot in the span domain
`kv[degree] <= knot < kv[numCtrlpts]` (which contains the open domain of a
clamped vector), `find_span` either takes the tolerance special case and
returns `numCtrlpts - 1` directly, or terminates returning an index `i` with
`kv[i] <= knot < kv[i+1]`. -/
theorem find_span_correct (degree num_ctrlpts : ℤ) (kv : List ℚ)
    (knot tol : ℚ) (_hchain : List.Chain' (· ≤ ·) kv)
    (hlen : (kv.length : ℤ) = degree + num_ctrlpts + 1)
    (hdeg : 0 ≤ degree) (hnum : degree < num_ctrlpts)
    (hlo : kv.getD degree.toNat 0 ≤ knot)
    (hhi : knot < kv.getD num_ctrlpts.toNat 0) :
    (|kv.getD num_ctrlpts.toNat 0 - knot| ≤ tol →
      find_span kv.length degree kv num_ctrlpts knot tol =
        some (.ok (num_ctrlpts - 1))) ∧
    (¬(|kv.getD num_ctrlpts.toNat 0 - knot| ≤ tol) →
      ∃ i : ℤ, find_span kv.length degree kv num_ctrlpts knot tol =
          some (.ok i) ∧
        kv.getD i.toNat 0 ≤ knot ∧ knot < kv.getD (i.toNat + 1) 0) := by
  have hread : pyGet kv (num_ctrlpts - 1 + 1) = .ok (kv.getD num_ctrlpts.toNat 0) := by
    have := pyGet_inrange kv num_ctrlpts (by omega) (by omega)
    rwa [show num_ctrlpts - 1 + 1 = num_ctrlpts by ring]
  constructor
  · intro htol
    unfold find_span
    simp only []
    rw [hread]
    simp only []
    rw [if_pos htol]
  · intro htol
    unfold find_span
    simp only []
    rw [hread]
    simp only []
    rw [if_neg htol]
    obtain ⟨i, hrec, _, _, hi3, hi4⟩ := findSpanLoop_correct kv knot
      kv.length degree (num_ctrlpts - 1 + 1) hdeg (by omega) (by omega) hlo
      (by rwa [show (num_ctrlpts - 1 + 1).toNat = num_ctrlpts.toNat by omega])
      (by omega)
    exact ⟨i, hrec, hi3, hi4⟩

/-- C5 witness: the tolerance special case on a concrete clamped vector. -/
theorem find_span_correct_app :
    find_span 5 1 [0, 0, 1 / 2, 1, 1] 3 (1 - 1 / 2000) (1 / 1000) =
      some (.ok 2) :=
  (find_span_correct 1 3 [0, 0, 1 / 2, 1, 1] (1 - 1 / 2000) (1 / 1000)
    (by norm_num [List.chain'_cons, List.chain'_singleton]) (by decide)
    (by decide) (by decide) (by decide) (by decide)).1 (by decide)

/-! ## Termination of `decompose_curve` on valid clamped curves -/

/-- The data-model invariant of a curve (spec §3): the knot vector is
non-decreasing and clamped with end multiplicities exactly `degree + 1`
(`a` strictly below and `b` strictly above every interior knot), and
`len(knotvector) = degree + len(ctrlpts) + 1`. -/
def ValidCurve (c : Curve) : Prop :=
  0 ≤ c.degree ∧
  ∃ a mid b, c.knotvector =
      List.replicate (c.degree.toNat + 1) a ++ mid ++
        List.replicate (c.degree.toNat + 1) b ∧
    List.Chain' (· ≤ ·) mid ∧ (∀ x ∈ mid, a < x ∧ x < b) ∧ a < b ∧
    c.ctrlpts.length = mid.length + c.degree.toNat + 1

theorem getD_replicate (n : ℕ) (x : ℚ) (i : ℕ) (h : i < n) (d : ℚ) :
    (List.replicate n x).getD i d = x := by
  rw [List.getD_eq_getElem _ _ (by simpa using h), List.getElem_replicate]

theorem chain_head_le (m : ℚ) (t : List ℚ)
    (h : List.Chain' (· ≤ ·) (m :: t)) : ∀ x ∈ t, m ≤ x := by
  intro x hx
  have hp := List.chain'_iff_pairwise.mp h
  exact (List.pairwise_cons.mp hp).1 x hx

theorem chain_dropWhile_gt (mid : List ℚ) (u : ℚ)
    (hs : List.Chain' (· ≤ ·) mid) :
    ∀ x ∈ mid.dropWhile (fun y => decide (y ≤ u)), u < x := by
  induction mid with
  | nil => intro x hx; simp at hx
  | cons m t ih =>
    intro x hx
    by_cases hm : m ≤ u
    · rw [List.dropWhile_cons_of_pos (by simpa using hm)] at hx
      exact ih (List.Chain'.tail hs) x hx
    · rw [List.dropWhile_cons_of_neg (by simpa using hm)] at hx
      rcases List.mem_cons.mp hx with rfl | hxt
      · exact not_le.mp hm
      · exact lt_of_lt_of_le (not_le.mp hm) (chain_head_le m t hs x hxt)

theorem chain_takeWhile_le (mid : List ℚ) (u : ℚ) :
    ∀ x ∈ mid.takeWhile (fun y => decide (y ≤ u)), x ≤ u := by
  intro x hx
  simpa using List.mem_takeWhile_imp hx

theorem pySlice_zero_le {α : Type} (l : List α) (k : ℤ) (h0 : 0 ≤ k)
    (hk : k ≤ (l.length : ℤ)) : pySlice l 0 k = l.take k.toNat := by
  unfold pySlice pySliceIdx
  rw [if_neg (by omega), if_neg (by omega)]
  simp only [Int.toNat_zero, Nat.zero_min, List.drop_zero]
  rw [min_eq_left (by omega)]

theorem pySlice_to_end {α : Type} (l : List α) (k : ℤ) (h0 : 0 ≤ k) :
    pySlice l k (l.length : ℤ) = l.drop k.toNat := by
  unfold pySlice pySliceIdx
  rw [if_neg (by omega), if_neg (by omega)]
  have h1 : ((l.length : ℤ)).toNat = l.length := by omega
  rw [h1, min_self, List.take_length]
  rcases le_or_lt k.toNat l.length with hk | hk
  · rw [min_eq_left hk]
  · rw [min_eq_right (by omega), List.drop_length,
      List.drop_eq_nil_of_le (by omega)]

/-- On a valid clamped knot vector the interior slice
`knotvector[degree+1 : -(degree+1)]` is exactly the interior knot list. -/
theorem interior_slice_eq (c : Curve) (a b : ℚ) (mid : List ℚ)
    (hd : 0 ≤ c.degree)
    (hkv : c.knotvector = List.replicate (c.degree.toNat + 1) a ++ mid ++
      List.replicate (c.degree.toNat + 1) b) :
    pySlice c.knotvector (c.degree + 1) (-(c.degree + 1)) = mid := by
  have hlen : c.knotvector.length =
      (c.degree.toNat + 1) + mid.length + (c.degree.toNat + 1) := by
    rw [hkv]
    simp only [List.length_append, List.length_replicate]
  unfold pySlice pySliceIdx
  rw [if_neg (show ¬(c.degree + 1 < 0) by omega),
    if_pos (show -(c.degree + 1) < 0 by omega)]
  have hb : ((c.knotvector.length : ℤ) + -(c.degree + 1)).toNat =
      (c.degree.toNat + 1) + mid.length := by omega
  have ha : min (c.degree + 1).toNat c.knotvector.length =
      c.degree.toNat + 1 := by
    have h1 : (c.degree + 1).toNat ≤ c.knotvector.length := by omega
    rw [min_eq_left h1]
    omega
  rw [hb, ha, hkv, List.append_assoc]
  rw [show c.degree.toNat + 1 + mid.length =
    (List.replicate (c.degree.toNat + 1) a).length + mid.length from by simp]
  rw [List.take_append, List.take_left]
  exact List.drop_left' (by simp)

/-- The linear span scan of `find_span_linear` on a list whose entries `<= u`
form exactly the prefix of length `c0` stops at `min num c0` and returns
`min num c0 - 1`. -/
theorem fslLoop_reaches (kv : List ℚ) (u : ℚ) (num c0 : ℤ)
    (hnum : num ≤ (kv.length : ℤ))
    (hle : ∀ i : ℕ, (i : ℤ) < c0 → i < kv.length → kv.getD i 0 ≤ u)
    (hgt : ∀ i : ℕ, c0 ≤ (i : ℤ) → i < kv.length → u < kv.getD i 0) :
    ∀ (fuel : ℕ) (span : ℤ), 0 ≤ span → span ≤ min num c0 →
      fuel = (num - span).toNat →
      fslLoop kv u fuel span = .ok (min num c0 - 1) := by
  intro fuel
  induction fuel with
  | zero =>
    intro span h0 hmin hfuel
    unfold fslLoop
    congr 1
    omega
  | succ f ih =>
    intro span h0 hmin hfuel
    have hspan_num : span < num := by omega
    have hread : pyGet kv span = .ok (kv.getD span.toNat 0) :=
      pyGet_inrange _ _ h0 (by omega)
    unfold fslLoop
    rw [hread]
    simp only []
    by_cases hcase : span < c0
    · rw [if_pos (hle span.toNat (by omega) (by omega))]
      exact ih (span + 1) (by omega) (by omega) (by omega)
    · rw [if_neg (not_le.mpr (hgt span.toNat (by omega) (by omega)))]
      congr 1
      omega

/-- `find_span_linear` under the prefix characterization. -/
theorem find_span_linear_reaches (degree : ℤ) (kv : List ℚ) (u : ℚ)
    (num c0 : ℤ) (hnum : num ≤ (kv.length : ℤ))
    (hdc : degree + 1 ≤ min num c0) (hd : 0 ≤ degree)
    (hle : ∀ i : ℕ, (i : ℤ) < c0 → i < kv.length → kv.getD i 0 ≤ u)
    (hgt : ∀ i : ℕ, c0 ≤ (i : ℤ) → i < kv.length → u < kv.getD i 0) :
    find_span_linear degree kv num u = .ok (min num c0 - 1) := by
  unfold find_span_linear
  exact fslLoop_reaches kv u num c0 hnum hle hgt _ (degree + 1) (by omega)
    hdc rfl

theorem getD_mem_of_lt {α : Type} (l : List α) (d : α) (i : ℕ)
    (h : i < l.length) : l.getD i d ∈ l := by
  rw [List.getD_eq_getElem l d h]
  exact List.getElem_mem h

/-- Entry characterization of a list split as `front ++ back` with every
front entry `<= u` and every back entry `> u`. -/
theorem prefix_le_gt (front back : List ℚ) (u : ℚ)
    (hf : ∀ x ∈ front, x ≤ u) (hb : ∀ x ∈ back, u < x) :
    (∀ i : ℕ, (i : ℤ) < (front.length : ℕ) → i < (front ++ back).length →
      (front ++ back).getD i 0 ≤ u) ∧
    (∀ i : ℕ, ((front.length : ℕ) : ℤ) ≤ (i : ℤ) → i < (front ++ back).length →
      u < (front ++ back).getD i 0) := by
  constructor
  · intro i hi _
    have hif : i < front.length := by omega
    rw [List.getD_append _ _ _ _ hif]
    exact hf _ (getD_mem_of_lt _ _ _ hif)
  · intro i hi hilen
    have hif : front.length ≤ i := by omega
    rw [List.getD_append_right _ _ _ _ hif]
    have : i - front.length < back.length := by
      rw [List.length_append] at hilen
      omega
    exact hb _ (getD_mem_of_lt _ _ _ this)

theorem getLast?_replicate_succ (n : ℕ) (x : ℚ) :
    (List.replicate (n + 1) x).getLast? = some x := by
  induction n with
  | zero => rfl
  | succ m ih =>
    rw [List.replicate_succ, List.getLast?_cons]
    simp only [List.replicate_succ, List.getLast?_cons] at ih ⊢
    exact ih

theorem chain_dropWhile (mid : List ℚ) (p : ℚ → Bool)
    (hs : List.Chain' (· ≤ ·) mid) :
    List.Chain' (· ≤ ·) (mid.dropWhile p) := by
  induction mid with
  | nil => simp
  | cons m t ih =>
    by_cases hm : p m
    · rw [List.dropWhile_cons_of_pos hm]
      exact ih (List.Chain'.tail hs)
    · rw [List.dropWhile_cons_of_neg hm]
      exact hs

theorem mem_front_le (D : ℕ) (a u : ℚ) (tw : List ℚ) (rn : ℕ)
    (hau : a ≤ u) (htw : ∀ x ∈ tw, x ≤ u) :
    ∀ x ∈ (List.replicate (D + 1) a ++ tw) ++ List.replicate rn u, x ≤ u := by
  intro x hx
  rcases List.mem_append.mp hx with hx1 | hx2
  · rcases List.mem_append.mp hx1 with hxa | hxtw
    · rw [List.eq_of_mem_replicate hxa]
      exact hau
    · exact htw x hxtw
  · rw [List.eq_of_mem_replicate hx2]

theorem mem_back_gt (D : ℕ) (b u : ℚ) (dw : List ℚ)
    (hub : u < b) (hdw : ∀ x ∈ dw, u < x) :
    ∀ x ∈ dw ++ List.replicate (D + 1) b, u < x := by
  intro x hx
  rcases List.mem_append.mp hx with hx1 | hx2
  · exact hdw x hx1
  · rw [List.eq_of_mem_replicate hx2]
    exact hub

/-- The span scan of `find_span_linear` on a structured clamped vector
`(a^(D+1) ++ tw ++ u^rn) ++ (dw ++ b^(D+1))` whose prefix holds exactly the
entries `<= u`: it stops right after the prefix. -/
theorem structured_span (degree : ℤ) (rn : ℕ) (a b u : ℚ) (tw dw : List ℚ)
    (kv : List ℚ) (num : ℤ) (hd0 : 0 ≤ degree)
    (hkv : kv = ((List.replicate (degree.toNat + 1) a ++ tw) ++
      List.replicate rn u) ++ (dw ++ List.replicate (degree.toNat + 1) b))
    (hau : a ≤ u) (htw : ∀ x ∈ tw, x ≤ u)
    (hub : u < b) (hdw : ∀ x ∈ dw, u < x)
    (hnum : num ≤ (kv.length : ℤ))
    (hc0 : degree + 1 + (tw.length : ℤ) + (rn : ℤ) ≤ num) :
    find_span_linear degree kv num u =
      .ok (degree + (tw.length : ℤ) + (rn : ℤ)) := by
  subst hkv
  have hfl : ((List.replicate (degree.toNat + 1) a ++ tw) ++
      List.replicate rn u).length = degree.toNat + 1 + tw.length + rn := by
    simp only [List.length_append, List.length_replicate]
  obtain ⟨h1, h2⟩ := prefix_le_gt _ _ u
    (mem_front_le degree.toNat a u tw rn hau htw)
    (mem_back_gt degree.toNat b u dw hub hdw)
  rw [hfl] at h1 h2
  have hrun := find_span_linear_reaches degree _ u num
    (degree + 1 + (tw.length : ℤ) + (rn : ℤ)) hnum (by omega) hd0
    (fun i hi hil => h1 i (by omega) hil)
    (fun i hi hil => h2 i (by omega) hil)
  rw [hrun, min_eq_right hc0]
  congr 1
  omega

/-- `curveInsertKnot` with a nonnegative count `r` on a structured clamped
vector: the `r` copies of `u` land right after the prefix of entries `<= u`
and the control-point list grows by `r` entries. -/
theorem structured_insert (c : Curve) (a b u : ℚ) (tw dw : List ℚ) (r : ℤ)
    (hd0 : 0 ≤ c.degree)
    (hkv : c.knotvector = (List.replicate (c.degree.toNat + 1) a ++ tw) ++
      (dw ++ List.replicate (c.degree.toNat + 1) b))
    (hau : a ≤ u) (htw : ∀ x ∈ tw, x ≤ u)
    (hub : u < b) (hdw : ∀ x ∈ dw, u < x)
    (hpts : c.ctrlpts.length = tw.length + dw.length + c.degree.toNat + 1)
    (hr : 0 ≤ r) :
    ∃ pts', curveInsertKnot c u r = .ok { c with
        knotvector := ((List.replicate (c.degree.toNat + 1) a ++ tw) ++
          List.replicate r.toNat u) ++
          (dw ++ List.replicate (c.degree.toNat + 1) b),
        ctrlpts := pts' } ∧
      pts'.length = c.ctrlpts.length + r.toNat := by
  have hkvlen : c.knotvector.length =
      2 * (c.degree.toNat + 1) + tw.length + dw.length := by
    rw [hkv]
    simp only [List.length_append, List.length_replicate]
    omega
  have hkv0 : c.knotvector = ((List.replicate (c.degree.toNat + 1) a ++ tw) ++
      List.replicate 0 u) ++ (dw ++ List.replicate (c.degree.toNat + 1) b) := by
    rw [hkv, List.replicate_zero, List.append_nil]
  have hspan := structured_span c.degree 0 a b u tw dw c.knotvector
    (c.ctrlpts.length : ℤ) hd0 hkv0 hau htw hub hdw (by omega) (by omega)
  simp only [Nat.cast_zero, add_zero] at hspan
  have hsl1 : pySlice c.knotvector 0 (c.degree + (tw.length : ℤ) + 1) =
      List.replicate (c.degree.toNat + 1) a ++ tw := by
    rw [pySlice_zero_le c.knotvector _ (by omega) (by omega)]
    rw [show (c.degree + (tw.length : ℤ) + 1).toNat =
      (List.replicate (c.degree.toNat + 1) a ++ tw).length from by
        simp only [List.length_append, List.length_replicate]; omega]
    rw [hkv, List.take_left]
  have hsl2 : pySlice c.knotvector (c.degree + (tw.length : ℤ) + 1)
      (c.knotvector.length : ℤ) =
      dw ++ List.replicate (c.degree.toNat + 1) b := by
    rw [pySlice_to_end c.knotvector _ (by omega)]
    rw [show (c.degree + (tw.length : ℤ) + 1).toNat =
      (List.replicate (c.degree.toNat + 1) a ++ tw).length from by
        simp only [List.length_append, List.length_replicate]; omega]
    rw [hkv]
    exact List.drop_left _ _
  unfold curveInsertKnot
  rw [if_neg (not_lt.mpr hr), hspan]
  simp only [exceptBind_ok, exceptPure_eq]
  refine ⟨pySlice c.ctrlpts 0 (c.degree + (tw.length : ℤ) - c.degree + 1) ++
    List.replicate r.toNat
      (c.ctrlpts.getD (c.degree + (tw.length : ℤ) - c.degree + 1).toNat []) ++
    pySlice c.ctrlpts (c.degree + (tw.length : ℤ) - c.degree + 1)
      (c.ctrlpts.length : ℤ), ?_, ?_⟩
  · rw [hsl1, hsl2]
  · have hA : c.degree + (tw.length : ℤ) - c.degree + 1 =
        ((tw.length + 1 : ℕ) : ℤ) := by
      push_cast
      ring
    rw [hA, pySlice_zero_le _ _ (by omega) (by omega),
      pySlice_to_end _ _ (by omega)]
    simp only [List.length_append, List.length_take, List.length_replicate,
      List.length_drop, Int.toNat_natCast]
    omega

/-- One `decompose_curve` step: on a curve satisfying the data-model
invariant whose interior slice starts with `u`, `split_curve` at `u` either
raises (the insertion count came out negative) or returns a second half that
again satisfies the invariant with a strictly shorter interior slice. -/
theorem split_curve_structured (c : Curve) (hvc : ValidCurve c) (u : ℚ)
    (tail : List ℚ)
    (hmid : pySlice c.knotvector (c.degree + 1) (-(c.degree + 1)) = u :: tail) :
    (∃ e, split_curve c u = .error e) ∨
    (∃ c1 c2, split_curve c u = .ok (c, c1, c2) ∧ ValidCurve c2 ∧
      (pySlice c2.knotvector (c2.degree + 1) (-(c2.degree + 1))).length
        ≤ tail.length) := by
  obtain ⟨hd0, a, mid, b, hkv, hchain, hmem, hab, hlenc⟩ := hvc
  rw [interior_slice_eq c a b mid hd0 hkv] at hmid
  subst hmid
  simp only [List.length_cons] at hlenc
  set tw : List ℚ := (u :: tail).takeWhile (fun y => decide (y ≤ u)) with htw_def
  set dw : List ℚ := (u :: tail).dropWhile (fun y => decide (y ≤ u)) with hdw_def
  have htwdw : tw ++ dw = u :: tail := by
    rw [htw_def, hdw_def]
    exact List.takeWhile_append_dropWhile _ _
  have hlentwdw : tw.length + dw.length = tail.length + 1 := by
    rw [← List.length_append, htwdw, List.length_cons]
  have htw_pos : 1 ≤ tw.length := by
    rw [htw_def, List.takeWhile_cons_of_pos (by simp)]
    simp
  have hau : a < u := (hmem u (List.mem_cons_self u tail)).1
  have hub : u < b := (hmem u (List.mem_cons_self u tail)).2
  have htw_le : ∀ x ∈ tw, x ≤ u := chain_takeWhile_le (u :: tail) u
  have hdw_gt : ∀ x ∈ dw, u < x := chain_dropWhile_gt (u :: tail) u hchain
  have hdw_chain : List.Chain' (· ≤ ·) dw :=
    chain_dropWhile (u :: tail) (fun y => decide (y ≤ u)) hchain
  have hdw_sub : List.Sublist dw (u :: tail) :=
    List.dropWhile_sublist (fun y => decide (y ≤ u))
  have hkv2 : c.knotvector = (List.replicate (c.degree.toNat + 1) a ++ tw) ++
      (dw ++ List.replicate (c.degree.toNat + 1) b) := by
    rw [hkv, ← htwdw]
    simp only [List.append_assoc]
  have hkvlen : c.knotvector.length =
      2 * (c.degree.toNat + 1) + tw.length + dw.length := by
    rw [hkv2]
    simp only [List.length_append, List.length_replicate]
    omega
  have hpts' : c.ctrlpts.length = tw.length + dw.length + c.degree.toNat + 1 := by
    omega
  have hkv20 : c.knotvector = ((List.replicate (c.degree.toNat + 1) a ++ tw) ++
      List.replicate 0 u) ++ (dw ++ List.replicate (c.degree.toNat + 1) b) := by
    rw [hkv2, List.replicate_zero, List.append_nil]
  have hspan0 := structured_span c.degree 0 a b u tw dw c.knotvector
    (c.ctrlpts.length : ℤ) hd0 hkv20 (le_of_lt hau) htw_le hub hdw_gt
    (by omega) (by omega)
  simp only [Nat.cast_zero, add_zero] at hspan0
  have hg0 : pyGet c.knotvector 0 = .ok a := by
    refine pyGet_head _ a ?_
    rw [hkv, List.replicate_succ]
    rfl
  have hgL : pyGet c.knotvector (-1) = .ok b := by
    refine pyGet_last _ b ?_
    rw [hkv, List.getLast?_append_of_ne_nil _ (by simp),
      getLast?_replicate_succ]
  have hguard : ¬(u = a ∨ u = b) := by
    push_neg
    exact ⟨ne_of_gt hau, ne_of_lt hub⟩
  by_cases hr : c.degree - find_multiplicity_h u c.knotvector < 0
  · left
    refine ⟨"ValueError: invalid number of insertions", ?_⟩
    unfold split_curve
    rw [hg0]
    simp only [exceptBind_ok]
    rw [hgL]
    simp only [exceptBind_ok]
    rw [if_neg hguard, hspan0]
    simp only [exceptBind_ok]
    unfold curveInsertKnot
    rw [if_pos hr]
    simp only [exceptBind_err]
  · have hr' : 0 ≤ c.degree - find_multiplicity_h u c.knotvector := by omega
    obtain ⟨pts', hins, hptsl⟩ := structured_insert c a b u tw dw
      (c.degree - find_multiplicity_h u c.knotvector) hd0 hkv2
      (le_of_lt hau) htw_le hub hdw_gt hpts' hr'
    have hspan2 := structured_span c.degree
      (c.degree - find_multiplicity_h u c.knotvector).toNat a b u tw dw
      (((List.replicate (c.degree.toNat + 1) a ++ tw) ++
        List.replicate (c.degree - find_multiplicity_h u c.knotvector).toNat u) ++
        (dw ++ List.replicate (c.degree.toNat + 1) b))
      (pts'.length : ℤ) hd0 rfl (le_of_lt hau) htw_le hub hdw_gt
      (by simp only [List.length_append, List.length_replicate]; omega)
      (by omega)
    have key : ∃ c1 c2, split_curve c u = .ok (c, c1, c2) ∧
        c2.degree = c.degree ∧
        c2.knotvector = List.replicate (c.degree.toNat + 1) u ++
          (dw ++ List.replicate (c.degree.toNat + 1) b) ∧
        c2.ctrlpts.length = dw.length + c.degree.toNat + 1 := by
      unfold split_curve
      rw [hg0]
      simp only [exceptBind_ok]
      rw [hgL]
      simp only [exceptBind_ok]
      rw [if_neg hguard, hspan0]
      simp only [exceptBind_ok]
      rw [hins]
      simp only [exceptBind_ok]
      rw [hspan2]
      simp only [exceptBind_ok, exceptPure_eq]
      refine ⟨_, _, rfl, rfl, ?_, ?_⟩
      · rw [show (c.degree + 1).toNat = c.degree.toNat + 1 from by omega]
        rw [pySlice_to_end _ _ (by omega)]
        rw [show (c.degree + (tw.length : ℤ) +
            ((c.degree - find_multiplicity_h u c.knotvector).toNat : ℤ) + 1).toNat =
          ((List.replicate (c.degree.toNat + 1) a ++ tw) ++
            List.replicate
              (c.degree - find_multiplicity_h u c.knotvector).toNat u).length
          from by simp only [List.length_append, List.length_replicate]; omega]
        rw [List.drop_left]
      · rw [pySlice_to_end pts' (c.degree + (tw.length : ℤ) - c.degree + 1 +
          (c.degree - find_multiplicity_h u c.knotvector) - 1) (by omega)]
        simp only [List.length_drop]
        omega
    obtain ⟨c1, c2, hok, hdeg2, hkvc2, hctl2⟩ := key
    have hkvc2' : c2.knotvector = List.replicate (c2.degree.toNat + 1) u ++
        dw ++ List.replicate (c2.degree.toNat + 1) b := by
      rw [hdeg2, hkvc2]
      exact (List.append_assoc _ _ _).symm
    have hd0' : 0 ≤ c2.degree := by
      rw [hdeg2]
      exact hd0
    refine Or.inr ⟨c1, c2, hok,
      ⟨hd0', u, dw, b, hkvc2', hdw_chain, ?_, hub, ?_⟩, ?_⟩
    · intro x hx
      exact ⟨hdw_gt x hx, (hmem x (hdw_sub.subset hx)).2⟩
    · rw [hdeg2]
      exact hctl2
    · rw [interior_slice_eq c2 u b dw hd0' hkvc2']
      omega

/-- With fuel exceeding the interior-knot count, the `while knots:` loop of
`decompose_curve` finishes (normally or with an exception) on every curve
satisfying the data-model invariant: each split shortens the interior slice. -/
theorem decomposeLoop_terminates :
    ∀ (n fuel : ℕ) (acc : List Curve) (c : Curve), ValidCurve c →
      (pySlice c.knotvector (c.degree + 1) (-(c.degree + 1))).length ≤ n →
      n < fuel →
      ∃ res, decomposeLoop fuel acc c = some res := by
  intro n
  induction n with
  | zero =>
    intro fuel acc c _ hint hfuel
    obtain ⟨f, rfl⟩ : ∃ f, fuel = f + 1 := ⟨fuel - 1, by omega⟩
    have hnil : pySlice c.knotvector (c.degree + 1) (-(c.degree + 1)) = [] :=
      List.length_eq_zero.mp (by omega)
    unfold decomposeLoop
    rw [hnil]
    exact ⟨_, rfl⟩
  | succ m ih =>
    intro fuel acc c hvc hint hfuel
    obtain ⟨f, rfl⟩ : ∃ f, fuel = f + 1 := ⟨fuel - 1, by omega⟩
    cases hknots : pySlice c.knotvector (c.degree + 1) (-(c.degree + 1)) with
    | nil =>
      unfold decomposeLoop
      rw [hknots]
      exact ⟨_, rfl⟩
    | cons u tail =>
      rw [hknots, List.length_cons] at hint
      rcases split_curve_structured c hvc u tail hknots with ⟨e, herr⟩ |
        ⟨c1, c2, hok, hvc2, hlen2⟩
      · unfold decomposeLoop
        rw [hknots]
        simp only []
        rw [herr]
        exact ⟨_, rfl⟩
      · unfold decomposeLoop
        rw [hknots]
        simp only []
        rw [hok]
        exact ih f [c1, c2, c1] c2 hvc2 (by omega) (by omega)

/-- For the clamped vector `[0, 0, 1, 1]` (degree 1, two control points) and
the out-of-domain knot `2`, the `find_span` binary search reaches `low = 1`,
`high = 2`, recomputes `mid = 1` and loops on that state forever: the
modelled loop exhausts every fuel bound. -/
theorem find_span_off_domain_all_fuel :
    ∀ fuel : ℕ, find_span fuel 1 [0, 0, 1, 1] 2 2 (1 / 1000) = none := by
  have hloop : ∀ f : ℕ, findSpanLoop [0, 0, 1, 1] 2 f 1 2 = none := by
    intro f
    induction f with
    | zero => rfl
    | succ g ih =>
      unfold findSpanLoop
      simp only []
      rw [show pyGet ([0, 0, 1, 1] : List ℚ) ((1 + 2) / 2) = .ok 0 from by
          decide,
        show pyGet ([0, 0, 1, 1] : List ℚ) ((1 + 2) / 2 + 1) = .ok 1 from by
          decide]
      simp only []
      rw [if_pos (show (2 : ℚ) < 0 ∨ (2 : ℚ) ≥ 1 from Or.inr (by norm_num)),
        if_neg (show ¬((2 : ℚ) < 0) from by norm_num)]
      rw [show ((1 + 2) / 2 : ℤ) = 1 from by decide]
      exact ih
  intro fuel
  unfold find_span
  simp only []
  rw [show pyGet ([0, 0, 1, 1] : List ℚ) (2 - 1 + 1) = .ok 1 from by decide]
  simp only []
  rw [if_neg (show ¬(|(1 : ℚ) - 2| ≤ 1 / 1000) from by norm_num)]
  rw [show (2 - 1 + 1 : ℤ) = 2 from by decide]
  exact hloop fuel

/-- C9 counterexample run: the binary-search loop of `find_span` does NOT
terminate for every input knot, and is not bounded by the knot-vector or
control-point counts.  On the clamped vector `[0, 0, 1, 1]` (degree 1, two
control points) the out-of-domain knot `2` spins the loop at
`low = 1, high = 2, mid = 1`: it is still running after 4 iterations (the
knot-vector length) and after 100 iterations alike. -/
theorem find_span_diverges_off_domain :
    find_span 4 1 [0, 0, 1, 1] 2 2 (1 / 1000) = none ∧
    find_span 100 1 [0, 0, 1, 1] 2 2 (1 / 1000) = none :=
  ⟨find_span_off_domain_all_fuel 4, find_span_off_domain_all_fuel 100⟩

/-- C9 (amended): the loops are bounded on the inputs the data model admits —
`find_span` terminates (within `len(knotVector)` bisection steps) for every
knot in the span domain `kv[degree] <= knot < kv[numCtrlpts]` of a
non-decreasing knot vector, and the `while knots:` loop of `decompose_curve`
terminates (within `len(knotVector)` iterations) for every curve satisfying
the clamped data-model invariant; but neither loop terminates on every input:
`find_span`'s bisection diverges for out-of-domain knots
(`find_span_off_domain_all_fuel`). -/
theorem core_loops_terminate_on_valid_inputs (degree num_ctrlpts : ℤ)
    (kv : List ℚ) (knot tol : ℚ) (_hchain : List.Chain' (· ≤ ·) kv)
    (hlen : (kv.length : ℤ) = degree + num_ctrlpts + 1)
    (hdeg : 0 ≤ degree) (hnum : degree < num_ctrlpts)
    (hlo : kv.getD degree.toNat 0 ≤ knot)
    (hhi : knot < kv.getD num_ctrlpts.toNat 0)
    (c : Curve) (hvc : ValidCurve c) :
    (find_span kv.length degree kv num_ctrlpts knot tol).isSome = true ∧
    (decompose_curve c c.knotvector.length).isSome = true := by
  constructor
  · have hread : pyGet kv (num_ctrlpts - 1 + 1) =
        .ok (kv.getD num_ctrlpts.toNat 0) := by
      have := pyGet_inrange kv num_ctrlpts (by omega) (by omega)
      rwa [show num_ctrlpts - 1 + 1 = num_ctrlpts by ring]
    unfold find_span
    simp only []
    rw [hread]
    simp only []
    by_cases htol : |kv.getD num_ctrlpts.toNat 0 - knot| ≤ tol
    · rw [if_pos htol]
      rfl
    · rw [if_neg htol]
      obtain ⟨i, hrec, _, _, _, _⟩ := findSpanLoop_correct kv knot kv.length
        degree (num_ctrlpts - 1 + 1) hdeg (by omega) (by omega) hlo
        (by rwa [show (num_ctrlpts - 1 + 1).toNat = num_ctrlpts.toNat by omega])
        (by omega)
      rw [hrec]
      rfl
  · obtain ⟨hd0, a, mid, b, hkvc, hchc, hmemc, habc, hlenc2⟩ := hvc
    have hkvlen : c.knotvector.length =
        2 * (c.degree.toNat + 1) + mid.length := by
      rw [hkvc]
      simp only [List.length_append, List.length_replicate]
      omega
    obtain ⟨res, hres⟩ := decomposeLoop_terminates mid.length
      c.knotvector.length [] c ⟨hd0, a, mid, b, hkvc, hchc, hmemc, habc, hlenc2⟩
      (by rw [interior_slice_eq c a b mid hd0 hkvc]) (by omega)
    unfold decompose_curve
    rw [hres]
    rfl

/-- C9 witness: both bounds realized on a concrete clamped degree-1 curve
with knot vector `[0, 0, 1/2, 1, 1]`: `find_span` terminates for the
in-domain knot `1/4`, and `decompose_curve` finishes within 5 iterations. -/
theorem core_loops_terminate_on_valid_inputs_app :
    (find_span 5 1 [0, 0, 1 / 2, 1, 1] 3 (1 / 4) (1 / 1000)).isSome = true ∧
    (decompose_curve
      { degree := 1, knotvector := [0, 0, 1 / 2, 1, 1],
        ctrlpts := [[0, 0], [1, 0], [2, 0]], rational := false,
        dimension := 2, delta := 1 / 10 } 5).isSome = true :=
  core_loops_terminate_on_valid_inputs 1 3 [0, 0, 1 / 2, 1, 1] (1 / 4)
    (1 / 1000) (by norm_num [List.chain'_cons, List.chain'_singleton])
    (by decide) (by decide) (by decide) (by decide) (by decide)
    _ ⟨by decide, 0, [1 / 2], 1, by decide,
      by norm_num [List.chain'_singleton], by decide, by decide, by decide⟩

end NurbsProof
